import Mathlib

/-!
Verification of the Evidence Aggregation & Retrieval Pipeline
(`app/tool/context_filter.py`, read back by `app/tool/report_generator.py`).

Python strings are modelled as `List Char`; byte positions in the Python
code become `Nat` indices.  Each Python helper is translated into an
executable Lean function; `while` loops become fuel-indexed recursions
whose fuel provably suffices on every terminating run of the Python code.
-/

/-- Python strings are modelled as lists of unicode characters. -/
abbrev Str := List Char

/-- Convenience: the character list of a string literal. -/
def strL (s : String) : Str := s.toList

/-- The whitespace predicate of Python's `str.strip` / regex `\s`
(space, tab, newline, carriage return, vertical tab, form feed — the
ASCII fragment of Python's whitespace class; exotic unicode whitespace
is not modelled). -/
def pyIsSpace (c : Char) : Bool :=
  c = ' ' || c = '\t' || c = '\n' || c = '\r' || c = '\x0b' || c = '\x0c'

/-- Python `str.strip()`: drop leading and trailing whitespace. -/
def stripChars (l : Str) : Str :=
  ((l.dropWhile pyIsSpace).reverse.dropWhile pyIsSpace).reverse

/-- The non-whitespace characters of a string, in order.  Used to state
"no loss of non-whitespace characters" properties. -/
def removeWS (l : Str) : Str := l.filter (fun c => !pyIsSpace c)

/-- Python slicing `s[a:b]` (for `a ≤ b`; clamped at the ends like Python). -/
def pySlice (s : Str) (a b : Nat) : Str := (s.drop a).take (b - a)

/-- The character at index `i`, `none` past the end (`s[i]` guarded). -/
def charAt (s : Str) (i : Nat) : Option Char := (s.drop i).head?

/-- Length of the maximal run of characters satisfying `p` starting at
index `i` (used to model greedy `#+`, `\s+`, `-+` regex pieces). -/
def runLen (p : Char → Bool) (s : Str) (i : Nat) : Nat :=
  ((s.drop i).takeWhile p).length

def hashRun (s : Str) (i : Nat) : Nat := runLen (fun c => c = '#') s i

def wsRun (s : Str) (i : Nat) : Nat := runLen pyIsSpace s i

def dashRun (s : Str) (i : Nat) : Nat := runLen (fun c => c = '-') s i

/-! ### `_chunk_text`: length-based secondary chunking

```python
def _chunk_text(self, text, max_chars=2000, overlap=150):
    text = text.strip()
    if len(text) <= max_chars:
        return [text] if text else []
    chunks = []
    start = 0
    while start < len(text):
        end = min(len(text), start + max_chars)
        chunk = text[start:end].strip()
        if chunk:
            chunks.append(chunk)
        if end == len(text):
            break
        start = max(0, end - overlap)
    return chunks
```

The `while` loop is modelled with fuel `len(text) + 1`: when
`overlap < max_chars` every iteration advances `start` by
`max_chars - overlap ≥ 1`, so the fuel is never exhausted (the Python
loop does not terminate at all when `overlap ≥ max_chars`). -/

def chunkLoop (t : Str) (mc ov : Nat) : Nat → Nat → List Str
  | 0, _ => []
  | fuel+1, start =>
    if start < t.length then
      let e := min t.length (start + mc)
      let chunk := stripChars (pySlice t start e)
      let rest := if e = t.length then [] else chunkLoop t mc ov fuel (e - ov)
      if chunk = [] then rest else chunk :: rest
    else []

def chunkText (text : Str) (mc ov : Nat) : List Str :=
  let t := stripChars text
  if t.length ≤ mc then (if t = [] then [] else [t])
  else chunkLoop t mc ov (t.length + 1) 0

/-- The raw (un-stripped) windows walked by the `_chunk_text` loop: same
control flow as `chunkLoop` but keeping `text[start:end]` itself. -/
def chunkWindowsLoop (t : Str) (mc ov : Nat) : Nat → Nat → List Str
  | 0, _ => []
  | fuel+1, start =>
    if start < t.length then
      let e := min t.length (start + mc)
      pySlice t start e ::
        (if e = t.length then [] else chunkWindowsLoop t mc ov fuel (e - ov))
    else []

/-- The windows underlying `chunkText` (singleton when no split happens). -/
def chunkWindows (text : Str) (mc ov : Nat) : List Str :=
  let t := stripChars text
  if t.length ≤ mc then (if t = [] then [] else [t])
  else chunkWindowsLoop t mc ov (t.length + 1) 0

/-! ### The header regex of `_split_markdown_by_headers`

`header_re = re.compile(r'^(#{1,6})\s+(.+?)\s*$', re.MULTILINE)` and
`matches = list(header_re.finditer(content))`.

A match attempt anchored at a line start `p` proceeds exactly as the
backtracking engine does: `#{1,6}` takes the whole hash run `k`
(`1 ≤ k ≤ 6`, a longer run makes every backtracking alternative fail on
the following `#`); `\s+` greedily takes the maximal whitespace run `w`
(which may cross newlines) and backtracks to the largest `a ≤ w` whose
following character exists and is not `'\n'` so that the lazy `.+?` can
start; `.+?` then grows to the first position where `\s*$` succeeds, and
the overall match ends where the greedy `\s*` leaves `$` satisfied
(end of string, or just before the last newline of the whitespace run).
`finditer` resumes scanning at the end of each match. -/

/-- Greedy backtracking for `\s+` before the lazy `.+?`: the largest
`a ∈ [1, w]` such that position `q + a` holds a character other than
`'\n'` (tried from `w` downwards, exactly like the regex engine). -/
def greedyA (s : Str) (q : Nat) : Nat → Option Nat
  | 0 => none
  | a+1 =>
    if q + (a+1) < s.length ∧ charAt s (q + (a+1)) ≠ some '\n' then some (a+1)
    else greedyA s q a

/-- Can `\s*$` succeed at position `r`?  Yes iff the maximal whitespace
run from `r` reaches the end of the string or contains a newline. -/
def tailOK (s : Str) (r : Nat) : Bool :=
  r + wsRun s r = s.length || (pySlice s r (r + wsRun s r)).contains '\n'

/-- First position `≥ r` where `\s*$` can succeed (the lazy `.+?` stops
there).  Such a position always exists at or before `s.length`. -/
def firstTailAux (s : Str) : Nat → Nat → Nat
  | 0, r => r
  | f+1, r => if tailOK s r then r else firstTailAux s f (r+1)

def firstTail (s : Str) (r : Nat) : Nat := firstTailAux s (s.length + 1) r

/-- The largest `t ≤ u` with a newline at `s[r + t]` (greedy `\s*`
backtracking in front of `$`); `0` when there is none. -/
def lastNL (s : Str) (r : Nat) : Nat → Nat
  | 0 => 0
  | t+1 => if charAt s (r + (t+1)) = some '\n' then t + 1 else lastNL s r t

/-- Where the whole match ends once `.+?` has stopped at `r`. -/
def matchEnd (s : Str) (r : Nat) : Nat :=
  if r + wsRun s r = s.length then s.length else r + lastNL s r (wsRun s r)

/-- Attempt `^(#{1,6})\s+(.+?)\s*$` at line-start position `p`;
returns `(header level, match end)` on success. -/
def headerMatchAt (s : Str) (p : Nat) : Option (Nat × Nat) :=
  let k := hashRun s p
  if 1 ≤ k ∧ k ≤ 6 then
    if 1 ≤ wsRun s (p + k) then
      match greedyA s (p + k) (wsRun s (p + k)) with
      | none => none
      | some a => some (k, matchEnd s (firstTail s (p + k + a + 1)))
    else none
  else none

/-- One regex match: start offset, header level (`len(m.group(1))`),
and end offset (where `finditer` resumes scanning). -/
structure HMatch where
  start : Nat
  level : Nat
  stop : Nat
  deriving DecidableEq, Repr

/-- `finditer` scan: try every position (the `^` anchor restricts
matches to offset `0` and positions following a newline), resume after
each match. -/
def findHeadersAux (s : Str) : Nat → Nat → List HMatch
  | 0, _ => []
  | f+1, p =>
    if p < s.length then
      if p = 0 ∨ charAt s (p - 1) = some '\n' then
        match headerMatchAt s p with
        | some (k, e) => ⟨p, k, e⟩ :: findHeadersAux s f e
        | none => findHeadersAux s f (p + 1)
      else findHeadersAux s f (p + 1)
    else []

def findHeaders (s : Str) : List HMatch := findHeadersAux s (s.length + 1) 0

/-! ### `_split_markdown_by_headers` -/

/-- `min_level <= level <= max_level`: this header is a split point. -/
def isInRange (minL maxL : Nat) (m : HMatch) : Bool :=
  minL ≤ m.level && m.level ≤ maxL

/-- The inner loop `for j in range(i+1, len(matches))` looking for the
next in-range split point: start of the first in-range match of `ms`,
or `dflt` (`len(content)`) when there is none. -/
def nextCut (minL maxL : Nat) (ms : List HMatch) (dflt : Nat) : Nat :=
  match ms with
  | [] => dflt
  | m :: rest => if isInRange minL maxL m then m.start else nextCut minL maxL rest dflt

/-- The first `for i, m in enumerate(matches)` loop: a block for every
in-range header, spanning to the next in-range header (or end of
document), stripped, dropped when empty. -/
def buildSections (content : Str) (minL maxL : Nat) : List HMatch → List Str
  | [] => []
  | m :: rest =>
    if isInRange minL maxL m then
      let blk := stripChars (pySlice content m.start (nextCut minL maxL rest content.length))
      if blk = [] then buildSections content minL maxL rest
      else blk :: buildSections content minL maxL rest
    else buildSections content minL maxL rest

/-- `matches[i + 1].start() if i + 1 < len(matches) else len(content)`:
start of the next match, or end of document. -/
def headStartD (ms : List HMatch) (dflt : Nat) : Nat :=
  ((ms.head?).map HMatch.start).getD dflt

/-- The fallback loop when level filtering produced no sections: every
header is a split point. -/
def buildAllSections (content : Str) : List HMatch → List Str
  | [] => []
  | m :: rest =>
    let blk := stripChars (pySlice content m.start (headStartD rest content.length))
    if blk = [] then buildAllSections content rest
    else blk :: buildAllSections content rest

/-- The `sections` list right before secondary chunking. -/
def headerSections (content : Str) (minL maxL : Nat) : List Str :=
  let ms := findHeaders content
  let s1 := buildSections content minL maxL ms
  if s1 = [] then buildAllSections content ms else s1

/-- `_split_markdown_by_headers(content, min_level, max_level, max_chars, overlap)`. -/
def splitMarkdownByHeaders (content : Str) (minL maxL mc ov : Nat) : List Str :=
  if findHeaders content = [] then chunkText content mc ov
  else
    (headerSections content minL maxL).flatMap
      (fun s => if mc < s.length then chunkText s mc ov else [s])

/-- The split point from which the Segmenter's output covers the
document: offset 0 when there are no headers at all (pure length-based
chunking), else the start of the first in-range header when one exists,
else the start of the first header (all-headers fallback). -/
def splitBase (content : Str) (minL maxL : Nat) : Nat :=
  let ms := findHeaders content
  if ms.any (fun x => isInRange minL maxL x) then nextCut minL maxL ms content.length
  else headStartD ms 0

/-! ### `_process_structured_content_raw`

`primary_segments = re.split(r"(?:\n|^)#{1,6}\s+|(?:\n|^)-{3,}(?:\n|$)", raw_content)`
(no `re.MULTILINE`, so `^` is offset 0 and `$` the string end / before a
final newline).  First alternative: an optional consumed newline (or the
string start), a hash run of length 1–6 followed by at least one
whitespace character, `\s+` taken greedily.  Second alternative: the
same prefix, a dash run of length ≥ 3 that must be followed by a newline
(consumed) or the end of the string — backtracking to a shorter dash run
always fails on the next dash. -/

/-- Try the split pattern's first alternative body `#{1,6}\s+` at `t`;
returns the match end. -/
def tryHashSplit (s : Str) (t : Nat) : Option Nat :=
  let k := hashRun s t
  if 1 ≤ k ∧ k ≤ 6 then
    if 1 ≤ wsRun s (t + k) then some (t + k + wsRun s (t + k)) else none
  else none

/-- Try the split pattern's second alternative body `-{3,}(?:\n|$)` at `t`. -/
def tryDashSplit (s : Str) (t : Nat) : Option Nat :=
  let m := dashRun s t
  if 3 ≤ m then
    if charAt s (t + m) = some '\n' then some (t + m + 1)
    else if t + m = s.length then some (t + m) else none
  else none

/-- A match of the primary-segment split pattern anchored at `p`, in the
engine's backtracking order: first alternative with consumed-newline
prefix, then with the `^` prefix (offset 0 only), then the second
alternative likewise.  Returns the match end. -/
def primSplitMatchAt (s : Str) (p : Nat) : Option Nat :=
  let nlPre : Option Nat := if charAt s p = some '\n' then some (p + 1) else none
  let zeroPre : Option Nat := if p = 0 then some p else none
  (nlPre.bind (tryHashSplit s)) <|> (zeroPre.bind (tryHashSplit s)) <|>
    (nlPre.bind (tryDashSplit s)) <|> (zeroPre.bind (tryDashSplit s))

/-- `re.split` scan: pieces between successive non-overlapping matches. -/
def reSplitAux (s : Str) : Nat → Nat → Nat → List Str
  | 0, ps, _ => [s.drop ps]
  | f+1, ps, p =>
    if p < s.length then
      match primSplitMatchAt s p with
      | some e => pySlice s ps p :: reSplitAux s f e e
      | none => reSplitAux s f ps (p + 1)
    else [s.drop ps]

def reSplit (s : Str) : List Str := reSplitAux s (s.length + 1) 0 0

/-- Python `str.split(sep)` for a non-empty separator: cut at each
left-to-right non-overlapping occurrence of `sep`. -/
def splitSepAux (sep s : Str) : Nat → Nat → Nat → List Str
  | 0, ps, _ => [s.drop ps]
  | f+1, ps, p =>
    if p < s.length then
      if pySlice s p (p + sep.length) = sep then
        pySlice s ps p :: splitSepAux sep s f (p + sep.length) (p + sep.length)
      else splitSepAux sep s f ps (p + 1)
    else [s.drop ps]

/-- `seg.split("\n\n")`. -/
def splitDoubleNL (s : Str) : List Str := splitSepAux (strL "\n\n") s (s.length + 1) 0 0

/-! `re.findall(r"!\[.*?\]\((.*?)\)", section)`: at each `![`, the lazy
`.*?` (which cannot cross a newline) stops at the closest `](` from
which a `)` is reachable without a newline; the captured group is the
text between that `](` and the first such `)`. -/

/-- First `)` at or after `j` with no newline in between. -/
def findCloseParen (s : Str) : Nat → Nat → Option Nat
  | 0, _ => none
  | f+1, j =>
    match charAt s j with
    | none => none
    | some c =>
      if c = ')' then some j
      else if c = '\n' then none
      else findCloseParen s f (j + 1)

/-- Scan from `i` (no newline may intervene) for a `](` from which a
matching `)` is reachable; on a `](` with no reachable `)` the engine
backtracks and the scan continues one character further. -/
def findBracketParen (s : Str) : Nat → Nat → Option (Nat × Nat)
  | 0, _ => none
  | f+1, i =>
    match charAt s i with
    | none => none
    | some c =>
      if c = ']' ∧ charAt s (i + 1) = some '(' then
        match findCloseParen s (s.length + 1) (i + 2) with
        | some j => some (i, j)
        | none => if c = '\n' then none else findBracketParen s f (i + 1)
      else if c = '\n' then none
      else findBracketParen s f (i + 1)

/-- `finditer` scan for the image pattern; emits each captured URL and
resumes after the closing parenthesis. -/
def findImagesAux (s : Str) : Nat → Nat → List Str
  | 0, _ => []
  | f+1, p =>
    if p < s.length then
      if charAt s p = some '!' ∧ charAt s (p + 1) = some '[' then
        match findBracketParen s (s.length + 1) (p + 2) with
        | some (i, j) => pySlice s (i + 2) j :: findImagesAux s f (j + 1)
        | none => findImagesAux s f (p + 1)
      else findImagesAux s f (p + 1)
    else []

/-- All captured image URLs of `re.findall(r"!\[.*?\]\((.*?)\)", s)`, in order. -/
def findImages (s : Str) : List Str := findImagesAux s (s.length + 1) 0

/-- Python `list(set(xs))`: one occurrence per distinct element.  CPython
leaves the order unspecified (hash order); the model keeps the first
occurrence, and every property proved about it is order-insensitive. -/
def pySetList {α : Type} [DecidableEq α] : List α → List α
  | [] => []
  | x :: xs => x :: (pySetList xs).filter (fun y => !decide (y = x))

/-- One element of `docs_info` (content plus inherited metadata). -/
structure DocInfo where
  content : Str
  source_url : Str
  file_type : Str
  deriving DecidableEq, Repr

/-- One element of `extracted_items`: the dict
`{"text": ..., "images": ..., "source_url": ..., "file_type": ...}`. -/
structure ExtractedItem where
  text : Str
  images : List Str
  source_url : Str
  file_type : Str
  deriving DecidableEq, Repr

/-- The body of `_process_structured_content_raw` for one `info`. -/
def processOne (info : DocInfo) : List ExtractedItem :=
  let primary := reSplit info.content
  let finals := primary.flatMap
    (fun seg => if 800 < seg.length then splitDoubleNL seg else [seg])
  finals.filterMap (fun seg =>
    let sec := stripChars seg
    if sec.length < 10 then none
    else some ⟨sec, pySetList (findImages sec), info.source_url, info.file_type⟩)

/-- `_process_structured_content_raw(docs_info)`. -/
def processStructuredContentRaw (docs : List DocInfo) : List ExtractedItem :=
  docs.flatMap processOne

/-! ### `_perform_rerank`

```python
if not docs:
    return []
unique_docs = {d.page_content: d for d in docs}.values()
docs = list(unique_docs)
pairs = [[query, doc.page_content] for doc in docs]
scores = _RERANK_MODEL.predict(pairs)
scored_docs = sorted(zip(scores, docs), key=lambda x: x[0], reverse=True)
return [doc for score, doc in scored_docs[:top_k]]
```

The cross-encoder is abstracted as a score oracle
`score : query → text → Int` (any linearly ordered score type works; the
claims are about ordering only).  `sorted(..., reverse=True)` is stable,
so it is modelled by an insertion sort that keeps an earlier element in
front of later elements with an equal key — permutation, sortedness and
stability determine the result uniquely. -/

/-- A `langchain` `Document`: `page_content` plus metadata of type `μ`. -/
structure Document (μ : Type) where
  page_content : Str
  metadata : μ
  deriving DecidableEq, Repr

/-- One step of building `{d.page_content: d for d in docs}`: a Python
dict keeps the position of the first insertion of a key but overwrites
its value. -/
def insertUpd {μ : Type} : List (Document μ) → Document μ → List (Document μ)
  | [], d => [d]
  | e :: es, d =>
    if e.page_content = d.page_content then d :: es else e :: insertUpd es d

/-- `list({d.page_content: d for d in docs}.values())`. -/
def dedupByContent {μ : Type} (docs : List (Document μ)) : List (Document μ) :=
  docs.foldl insertUpd []

/-- Stable insertion for descending sort by the first component: `x` goes
in front of the first element whose key is `≤ x`'s key. -/
def insDesc {μ : Type} (x : Int × Document μ) :
    List (Int × Document μ) → List (Int × Document μ)
  | [] => [x]
  | y :: ys => if y.1 ≤ x.1 then x :: y :: ys else y :: insDesc x ys

/-- Stable descending sort by score (the semantics of
`sorted(..., key=lambda x: x[0], reverse=True)`). -/
def sortDesc {μ : Type} : List (Int × Document μ) → List (Int × Document μ)
  | [] => []
  | x :: xs => insDesc x (sortDesc xs)

/-- `_perform_rerank(query, docs, top_k)` with the scoring model as an
oracle. -/
def performRerank {μ : Type} (score : Str → Str → Int) (query : Str)
    (docs : List (Document μ)) (top_k : Nat) : List (Document μ) :=
  if docs.isEmpty then []
  else
    let uniq := dedupByContent docs
    let scored := uniq.map (fun d => (score query d.page_content, d))
    ((sortDesc scored).take top_k).map (fun p => p.2)

/-! ### `execute`: orchestration of the whole pipeline -/

/-- Metadata attached to every pool block in `execute`. -/
structure BlockMeta where
  source_url : Str
  file_type : Str
  file_name : Str
  deriving DecidableEq, Repr

/-- `os.path.basename` (POSIX): everything after the last `/`. -/
def basename (p : Str) : Str :=
  (p.reverse.takeWhile (fun c => !decide (c = '/'))).reverse

/-- Scan for `-->` closing a `Source:` comment opened at text position
`z2`: the first occurrence whose in-between text, after stripping the
surrounding whitespace, contains no newline (the lazy `(.*?)` cannot
cross one; on failure the engine extends to the next `-->`). -/
def findCloseArrow (s : Str) (z2 : Nat) : Nat → Nat → Option Str
  | 0, _ => none
  | f+1, d =>
    if d < s.length then
      if pySlice s d (d + 3) = strL "-->" then
        let cap := stripChars (pySlice s z2 d)
        if cap.contains '\n' then findCloseArrow s z2 f (d + 1) else some cap
      else findCloseArrow s z2 f (d + 1)
    else none

/-- Attempt `<!--\s*Source:\s*(.*?)\s*-->` at position `p`; the code
applies `.strip()` to the captured group, so the returned value is the
stripped text between `Source:` and the closing `-->`. -/
def trySourceAt (s : Str) (p : Nat) : Option Str :=
  if pySlice s p (p + 4) = strL "<!--" then
    let z1 := p + 4 + wsRun s (p + 4)
    if pySlice s z1 (z1 + 7) = strL "Source:" then
      findCloseArrow s (z1 + 7) (s.length + 1) (z1 + 7)
    else none
  else none

def findSourceAux (s : Str) : Nat → Nat → Option Str
  | 0, _ => none
  | f+1, p =>
    if p < s.length then
      match trySourceAt s p with
      | some c => some c
      | none => findSourceAux s f (p + 1)
    else none

/-- `re.search(r"<!--\s*Source:\s*(.*?)\s*-->", content)`, stripped. -/
def findSourceComment (s : Str) : Option Str := findSourceAux s (s.length + 1) 0

/-- The source-attribution fallback chain: caller parameter if truthy,
else embedded comment if truthy, else the `"unknown_source"` sentinel
(Python's `if not current_source` treats `None` and `""` alike). -/
def resolveSource (param : Option Str) (content : Str) : Str :=
  let fromComment :=
    match findSourceComment content with
    | some u => if u = [] then strL "unknown_source" else u
    | none => strL "unknown_source"
  match param with
  | some u => if u = [] then fromComment else u
  | none => fromComment

/-- The batch-loading loop of `execute`: skip missing files and files
without a markdown extension, segment the rest, tag each block. -/
def buildPool (fs : Str → Option Str) (source_url : Option Str)
    (paths : List Str) : List (Document BlockMeta) :=
  paths.flatMap (fun path =>
    match fs path with
    | none => []
    | some content =>
      if (strL ".md").isSuffixOf path ∨ (strL ".markdown").isSuffixOf path then
        let src := resolveSource source_url content
        (splitMarkdownByHeaders content 1 3 2000 150).map
          (fun sec => ⟨sec, ⟨src, strL "markdown", basename path⟩⟩)
      else [])

/-- One record of `final_data` / of the persisted `"data"` list. -/
structure EvidenceRec where
  text : Str
  images : List Str
  source_url : Str
  deriving DecidableEq, Repr

/-- `workspace/{session_id}/structured_data/combined_data_{session_id}.json`. -/
def savePath (session : Str) : Str :=
  strL "workspace/" ++ session ++ strL "/structured_data/combined_data_"
    ++ session ++ strL ".json"

/-- `execute(query, file_paths, source_url)`.  The file system, the
FAISS recall step (`similarity_search(query, k=200)`) and the cross-encoder
are oracles; the result is the returned message together with the data
written to the session store (`none` when `_save_final_data` is never
called). -/
def executeModel (fs : Str → Option Str)
    (recallFn : List (Document BlockMeta) → Str → List (Document BlockMeta))
    (score : Str → Str → Int) (query : Str) (paths : List Str)
    (source_url : Option Str) (session : Str) :
    Str × Option (List EvidenceRec) :=
  let pool := buildPool fs source_url paths
  let finalData : List EvidenceRec :=
    if pool = [] then []
    else
      let cands := recallFn pool query
      let infos : List DocInfo :=
        cands.map (fun d => ⟨d.page_content, d.metadata.source_url, d.metadata.file_type⟩)
      let items := processStructuredContentRaw infos
      let rdocs : List (Document ExtractedItem) := items.map (fun it => ⟨it.text, it⟩)
      let rr := performRerank score query rdocs 50
      rr.map (fun d => ⟨d.page_content, d.metadata.images, d.metadata.source_url⟩)
  if finalData = [] then (strL "Batch process finished, no items found.", none)
  else
    (strL "Raw extraction complete. Saved " ++ strL (toString finalData.length)
      ++ strL " items to: " ++ savePath session, some finalData)

/-! ### `_save_final_data` and the report generator's read-back

`json.dump({"data": new_data}, f)` followed by the report generator's
`json.load` / `raw.get("data", raw)`.  Persistence is modelled at the
JSON-value level: the session store maps paths to parsed JSON values,
and a write replaces the value at the session path. -/

/-- JSON values (the fragment this pipeline produces). -/
inductive JVal where
  | str : Str → JVal
  | arr : List JVal → JVal
  | obj : List (Str × JVal) → JVal

/-- Dictionary field lookup. -/
def lookupField (k : Str) : List (Str × JVal) → Option JVal
  | [] => none
  | (k', v) :: rest => if k' = k then some v else lookupField k rest

/-- The JSON encoding of one evidence record. -/
def encodeRec (r : EvidenceRec) : JVal :=
  .obj [(strL "text", .str r.text), (strL "images", .arr (r.images.map .str)),
        (strL "source_url", .str r.source_url)]

/-- `_save_final_data(new_data, session_id)`: overwrite the session file
with `{"data": new_data}`; returns the new store and the path. -/
def saveFinalData (store : Str → Option JVal) (newData : List EvidenceRec)
    (session : Str) : (Str → Option JVal) × Str :=
  let path := savePath session
  (fun p => if p = path then
      some (.obj [(strL "data", .arr (newData.map encodeRec))])
    else store p, path)

/-- `raw.get("data", raw) if isinstance(raw, dict) else raw`. -/
def getDataField (raw : JVal) : JVal :=
  match raw with
  | .obj fields => (lookupField (strL "data") fields).getD (.obj fields)
  | v => v

/-- Python truthiness of a JSON value (`if not data_list`). -/
def jTruthy : JVal → Bool
  | .arr l => !l.isEmpty
  | .obj l => !l.isEmpty
  | .str s => !s.isEmpty

/-- The report generator's load step: read the session file, take the
`"data"` field, fail (`"Run extraction first"`) on absence or emptiness. -/
def reportLoadData (store : Str → Option JVal) (session : Str) : Option JVal :=
  match store (savePath session) with
  | none => none
  | some raw => if jTruthy (getDataField raw) then some (getDataField raw) else none

/-- Decode a JSON list of strings. -/
def decodeStrList : List JVal → Option (List Str)
  | [] => some []
  | .str s :: rest => (decodeStrList rest).map (fun l => s :: l)
  | _ => none

/-- Decode one persisted record back into its `{text, images, source_url}` shape. -/
def decodeRec (j : JVal) : Option EvidenceRec :=
  match j with
  | .obj fields =>
    match lookupField (strL "text") fields, lookupField (strL "images") fields,
        lookupField (strL "source_url") fields with
    | some (.str t), some (.arr imgs), some (.str su) =>
      (decodeStrList imgs).map (fun is => ⟨t, is, su⟩)
    | _, _, _ => none
  | _ => none

def decodeRecList : List JVal → Option (List EvidenceRec)
  | [] => some []
  | j :: rest =>
    match decodeRec j, decodeRecList rest with
    | some r, some rs => some (r :: rs)
    | _, _ => none

/-! ### Basic facts about `stripChars` and `removeWS` -/

theorem removeWS_append (a b : Str) : removeWS (a ++ b) = removeWS a ++ removeWS b := by
  simp [removeWS]

theorem removeWS_dropWhile (l : Str) :
    removeWS (l.dropWhile pyIsSpace) = removeWS l := by
  induction l with
  | nil => rfl
  | cons c t ih =>
    by_cases h : pyIsSpace c
    · simp [List.dropWhile_cons, h, removeWS, List.filter_cons] at ih ⊢
      simpa [removeWS] using ih
    · simp [List.dropWhile_cons, h]

theorem removeWS_reverse (l : Str) : removeWS l.reverse = (removeWS l).reverse := by
  simp [removeWS, List.filter_reverse]

theorem removeWS_strip (l : Str) : removeWS (stripChars l) = removeWS l := by
  unfold stripChars
  rw [removeWS_reverse, removeWS_dropWhile, removeWS_reverse, List.reverse_reverse,
    removeWS_dropWhile]

theorem dropWhile_head_false {p : Char → Bool} (l : Str) {c : Char} {t : Str}
    (h : l.dropWhile p = c :: t) : p c = false := by
  induction l with
  | nil => simp at h
  | cons x xs ih =>
    by_cases hx : p x
    · rw [List.dropWhile_cons_of_pos hx] at h; exact ih h
    · rw [List.dropWhile_cons_of_neg hx] at h
      cases h
      simpa using hx

theorem dropWhile_eq_self_of_head {p : Char → Bool} (l : Str)
    (h : ∀ c t, l = c :: t → p c = false) : l.dropWhile p = l := by
  cases l with
  | nil => rfl
  | cons c t => rw [List.dropWhile_cons_of_neg]; simp [h c t rfl]

theorem strip_head_false {l : Str} {c : Char} {t : Str}
    (h : stripChars l = c :: t) : pyIsSpace c = false := by
  unfold stripChars at h
  have hsuf : ((l.dropWhile pyIsSpace).reverse.dropWhile pyIsSpace) <:+
      (l.dropWhile pyIsSpace).reverse := List.dropWhile_suffix _
  have hpre : ((l.dropWhile pyIsSpace).reverse.dropWhile pyIsSpace).reverse <+:
      (l.dropWhile pyIsSpace) :=
    List.reverse_suffix.mp (by simpa using hsuf)
  rw [h] at hpre
  obtain ⟨r, hr⟩ := hpre
  exact dropWhile_head_false l hr.symm

theorem strip_dropWhile_self (l : Str) :
    (stripChars l).dropWhile pyIsSpace = stripChars l := by
  apply dropWhile_eq_self_of_head
  intro c t h
  exact strip_head_false h

theorem strip_idem (l : Str) : stripChars (stripChars l) = stripChars l := by
  have hX : (stripChars l).dropWhile pyIsSpace = stripChars l := strip_dropWhile_self l
  have hB : ((l.dropWhile pyIsSpace).reverse.dropWhile pyIsSpace).dropWhile pyIsSpace
      = (l.dropWhile pyIsSpace).reverse.dropWhile pyIsSpace :=
    dropWhile_eq_self_of_head _ (fun c t h => dropWhile_head_false _ h)
  simp only [stripChars] at hX ⊢
  rw [hX, List.reverse_reverse, hB]

theorem strip_length_le (l : Str) : (stripChars l).length ≤ l.length := by
  unfold stripChars
  calc ((l.dropWhile pyIsSpace).reverse.dropWhile pyIsSpace).reverse.length
      = ((l.dropWhile pyIsSpace).reverse.dropWhile pyIsSpace).length := by
        rw [List.length_reverse]
    _ ≤ (l.dropWhile pyIsSpace).reverse.length := (List.dropWhile_suffix _).length_le
    _ = (l.dropWhile pyIsSpace).length := by rw [List.length_reverse]
    _ ≤ l.length := (List.dropWhile_suffix _).length_le

theorem removeWS_eq_nil_iff (l : Str) : removeWS l = [] ↔ ∀ c ∈ l, pyIsSpace c := by
  simp [removeWS, List.filter_eq_nil_iff]

theorem strip_ne_nil_of_nonws {l : Str} {c : Char} (hc : c ∈ l)
    (hw : pyIsSpace c = false) : stripChars l ≠ [] := by
  intro h
  have h1 : removeWS l = [] := by rw [← removeWS_strip, h]; rfl
  have := (removeWS_eq_nil_iff l).mp h1 c hc
  rw [hw] at this
  exact Bool.false_ne_true this

theorem strip_nonws_of_ne_nil {l : Str} (h : stripChars l ≠ []) :
    ∃ c ∈ stripChars l, pyIsSpace c = false := by
  cases hl : stripChars l with
  | nil => exact absurd hl h
  | cons c t => exact ⟨c, by simp, strip_head_false hl⟩

/-! ### Facts about `chunkText` -/

theorem pySlice_length_le (s : Str) (a b : Nat) : (pySlice s a b).length ≤ b - a := by
  simp [pySlice]

theorem drop_eq_pySlice_append (s : Str) {a b : Nat} (hab : a ≤ b) :
    s.drop a = pySlice s a b ++ s.drop b := by
  unfold pySlice
  have h := List.take_append_drop (b - a) (s.drop a)
  rw [List.drop_drop, Nat.add_sub_cancel' hab] at h
  exact h.symm

theorem chunkLoop_mem (t : Str) (mc ov : Nat) :
    ∀ fuel start c, c ∈ chunkLoop t mc ov fuel start →
      c ≠ [] ∧ (∃ x, c = stripChars x) ∧ c.length ≤ mc := by
  intro fuel
  induction fuel with
  | zero => intro start c hc; simp [chunkLoop] at hc
  | succ f ih =>
    intro start c hc
    simp only [chunkLoop] at hc
    by_cases h : start < t.length
    · rw [if_pos h] at hc
      have hrest : ∀ c, c ∈ (if min t.length (start + mc) = t.length then []
          else chunkLoop t mc ov f (min t.length (start + mc) - ov)) →
          c ≠ [] ∧ (∃ x, c = stripChars x) ∧ c.length ≤ mc := by
        intro c hc
        split at hc
        · simp at hc
        · exact ih _ c hc
      by_cases hchunk : stripChars (pySlice t start (min t.length (start + mc))) = []
      · rw [if_pos hchunk] at hc
        exact hrest c hc
      · rw [if_neg hchunk] at hc
        rcases List.mem_cons.mp hc with rfl | hc
        · refine ⟨hchunk, ⟨_, rfl⟩, ?_⟩
          calc (stripChars (pySlice t start (min t.length (start + mc)))).length
              ≤ (pySlice t start (min t.length (start + mc))).length :=
                strip_length_le _
            _ ≤ min t.length (start + mc) - start := pySlice_length_le _ _ _
            _ ≤ mc := by omega
        · exact hrest c hc
    · rw [if_neg h] at hc
      simp at hc

theorem chunkText_mem {text : Str} {mc ov : Nat} {c : Str}
    (hc : c ∈ chunkText text mc ov) :
    c ≠ [] ∧ (∃ x, c = stripChars x) ∧ c.length ≤ mc := by
  simp only [chunkText] at hc
  by_cases hlen : (stripChars text).length ≤ mc
  · rw [if_pos hlen] at hc
    by_cases hnil : stripChars text = []
    · rw [if_pos hnil] at hc; simp at hc
    · rw [if_neg hnil] at hc
      have hc := List.mem_singleton.mp hc
      exact ⟨by rw [hc]; exact hnil, ⟨text, hc⟩, by rw [hc]; exact hlen⟩
  · rw [if_neg hlen] at hc
    exact chunkLoop_mem (stripChars text) mc ov _ 0 c hc

theorem chunkLoop_cover (t : Str) {mc ov : Nat} (hov : ov < mc) :
    ∀ fuel start, t.length - start ≤ fuel →
      List.Sublist (removeWS (t.drop start))
        (removeWS (chunkLoop t mc ov fuel start).flatten) := by
  intro fuel
  induction fuel with
  | zero =>
    intro start hf
    rw [List.drop_eq_nil_of_le (by omega)]
    exact List.nil_sublist _
  | succ f ih =>
    intro start hf
    by_cases h : start < t.length
    · have hse : start ≤ min t.length (start + mc) := by omega
      have heL : min t.length (start + mc) ≤ t.length := by omega
      have hsplit := drop_eq_pySlice_append t hse
      have hws := removeWS_strip (pySlice t start (min t.length (start + mc)))
      simp only [chunkLoop, if_pos h]
      by_cases hend : min t.length (start + mc) = t.length
      · rw [if_pos hend]
        have hdropE : t.drop (min t.length (start + mc)) = [] := by
          rw [hend]; exact List.drop_length t
        by_cases hchunk : stripChars (pySlice t start (min t.length (start + mc))) = []
        · rw [if_pos hchunk]
          rw [hsplit, hdropE, removeWS_append]
          rw [← hws, hchunk]
          simp [removeWS]
        · rw [if_neg hchunk]
          rw [hsplit, hdropE, removeWS_append]
          simp only [List.flatten_cons, List.flatten_nil, List.append_nil]
          rw [← hws]
          simp [removeWS]
      · rw [if_neg hend]
        have hEeq : min t.length (start + mc) = start + mc := by omega
        have hfuel2 : t.length - (min t.length (start + mc) - ov) ≤ f := by omega
        have hrec := ih (min t.length (start + mc) - ov) hfuel2
        have hmid : List.Sublist (removeWS (t.drop (min t.length (start + mc))))
            (removeWS (t.drop (min t.length (start + mc) - ov))) := by
          have h1 : min t.length (start + mc) - ov ≤ min t.length (start + mc) := by
            omega
          rw [drop_eq_pySlice_append t h1, removeWS_append]
          exact List.sublist_append_right _ _
        have hchain := hmid.trans hrec
        by_cases hchunk : stripChars (pySlice t start (min t.length (start + mc))) = []
        · rw [if_pos hchunk]
          rw [hsplit, removeWS_append]
          have hzero : removeWS (pySlice t start (min t.length (start + mc))) = [] := by
            rw [← hws, hchunk]; rfl
          rw [hzero, List.nil_append]
          exact hchain
        · rw [if_neg hchunk]
          rw [hsplit, removeWS_append]
          simp only [List.flatten_cons]
          rw [removeWS_append, ← hws]
          exact List.Sublist.append (List.Sublist.refl _) hchain
    · rw [List.drop_eq_nil_of_le (by omega)]
      exact List.nil_sublist _

theorem chunkText_cover (text : Str) {mc ov : Nat} (hov : ov < mc) :
    List.Sublist (removeWS text) (removeWS (chunkText text mc ov).flatten) := by
  rw [← removeWS_strip text]
  simp only [chunkText]
  by_cases hlen : (stripChars text).length ≤ mc
  · rw [if_pos hlen]
    by_cases hnil : stripChars text = []
    · rw [if_pos hnil, hnil]
      exact List.nil_sublist _
    · rw [if_neg hnil]
      simp only [List.flatten_cons, List.flatten_nil, List.append_nil]
      exact List.Sublist.refl _
  · rw [if_neg hlen]
    have := chunkLoop_cover (stripChars text) hov ((stripChars text).length + 1) 0
      (by omega)
    simpa using this

theorem chunkText_ne_nil {s : Str} {mc ov : Nat} (hmc : 0 < mc)
    (hs : stripChars s = s) (hlen : mc < s.length) : chunkText s mc ov ≠ [] := by
  have h0 : 0 < s.length := by omega
  obtain ⟨c, cs, hS⟩ : ∃ c cs, s = c :: cs := by
    cases s with
    | nil => simp at h0
    | cons c cs => exact ⟨c, cs, rfl⟩
  have hc : pyIsSpace c = false := strip_head_false (hs.trans hS)
  have hepos : 0 < min s.length (0 + mc) := lt_min_iff.mpr ⟨h0, by omega⟩
  obtain ⟨n, hn⟩ : ∃ n, min s.length (0 + mc) = n + 1 :=
    ⟨min s.length (0 + mc) - 1, by omega⟩
  have hwin : c ∈ pySlice s 0 (min s.length (0 + mc)) := by
    rw [pySlice, List.drop_zero, Nat.sub_zero, hn, hS, List.take_succ_cons]
    exact List.mem_cons_self _ _
  have hne : stripChars (pySlice s 0 (min s.length (0 + mc))) ≠ [] :=
    strip_ne_nil_of_nonws hwin hc
  have hns : ¬ s.length ≤ mc := by omega
  simp only [chunkText, hs, if_neg hns]
  simp only [chunkLoop, if_pos h0, if_neg hne]
  simp

theorem notEmpty_of_ne_nil {l : Str} (h : l ≠ []) : (!l.isEmpty) = true := by
  cases l with
  | nil => exact absurd rfl h
  | cons a b => rfl

theorem filter_ne_cons {l : List Str} {a : Str} (h : a ≠ []) :
    (a :: l).filter (fun c => !c.isEmpty) = a :: l.filter (fun c => !c.isEmpty) := by
  cases a with
  | nil => exact absurd rfl h
  | cons x xs => rfl

theorem filter_nil_cons (l : List Str) :
    (([] : Str) :: l).filter (fun c => !c.isEmpty) = l.filter (fun c => !c.isEmpty) := rfl

theorem chunkLoop_eq_windows (t : Str) (mc ov : Nat) :
    ∀ fuel start,
      chunkLoop t mc ov fuel start
        = ((chunkWindowsLoop t mc ov fuel start).map stripChars).filter
            (fun c => !c.isEmpty) := by
  intro fuel
  induction fuel with
  | zero => intro start; simp [chunkLoop, chunkWindowsLoop]
  | succ f ih =>
    intro start
    by_cases h : start < t.length
    · simp only [chunkLoop, chunkWindowsLoop, if_pos h, List.map_cons]
      by_cases hend : min t.length (start + mc) = t.length
      · rw [if_pos hend, if_pos hend, List.map_nil]
        by_cases hchunk : stripChars (pySlice t start (min t.length (start + mc))) = []
        · rw [if_pos hchunk, hchunk, filter_nil_cons, List.filter_nil]
        · rw [if_neg hchunk, filter_ne_cons hchunk, List.filter_nil]
      · rw [if_neg hend, if_neg hend]
        by_cases hchunk : stripChars (pySlice t start (min t.length (start + mc))) = []
        · rw [if_pos hchunk, hchunk, filter_nil_cons]
          exact ih _
        · rw [if_neg hchunk, filter_ne_cons hchunk, ih _]
    · simp [chunkLoop, chunkWindowsLoop, if_neg h]

theorem chunkText_eq_windows (text : Str) (mc ov : Nat) :
    chunkText text mc ov
      = ((chunkWindows text mc ov).map stripChars).filter (fun c => !c.isEmpty) := by
  simp only [chunkText, chunkWindows]
  by_cases hlen : (stripChars text).length ≤ mc
  · rw [if_pos hlen, if_pos hlen]
    by_cases hnil : stripChars text = []
    · rw [if_pos hnil]; rfl
    · rw [if_neg hnil, List.map_cons, List.map_nil, strip_idem, filter_ne_cons hnil,
        List.filter_nil]
  · rw [if_neg hlen, if_neg hlen]
    exact chunkLoop_eq_windows _ mc ov _ 0

theorem chunkWindowsLoop_chain (t : Str) {mc ov : Nat} (hov : ov < mc) :
    ∀ fuel start,
      List.Chain' (fun w1 w2 => w1.drop (w1.length - ov) = w2.take ov)
        (chunkWindowsLoop t mc ov fuel start) := by
  intro fuel
  induction fuel with
  | zero => intro start; simp [chunkWindowsLoop]
  | succ f ih =>
    intro start
    by_cases h : start < t.length
    · simp only [chunkWindowsLoop, if_pos h]
      by_cases hend : min t.length (start + mc) = t.length
      · rw [if_pos hend]
        exact List.chain'_singleton _
      · rw [if_neg hend]
        rw [List.chain'_cons']
        refine ⟨?_, ih _⟩
        intro w2 hw2
        have hEeq : min t.length (start + mc) = start + mc := by omega
        have hlt : start + mc < t.length := by omega
        cases f with
        | zero => simp [chunkWindowsLoop] at hw2
        | succ f2 =>
          have h2 : min t.length (start + mc) - ov < t.length := by omega
          simp only [chunkWindowsLoop, if_pos h2, List.head?_cons, Option.mem_def,
            Option.some.injEq] at hw2
          subst hw2
          have hw1len : (pySlice t start (min t.length (start + mc))).length = mc := by
            unfold pySlice
            rw [List.length_take, List.length_drop]
            omega
          rw [hw1len, hEeq]
          have e1 : (start + mc - start) - (mc - ov) = ov := by omega
          have e2 : start + (mc - ov) = start + mc - ov := by omega
          have lhs_eq : (pySlice t start (start + mc)).drop (mc - ov)
              = (t.drop (start + mc - ov)).take ov := by
            unfold pySlice
            rw [List.drop_take, List.drop_drop, e1, e2]
          have e3 : min ov (min t.length (start + mc - ov + mc) - (start + mc - ov))
              = ov := by omega
          have rhs_eq : (pySlice t (start + mc - ov)
                (min t.length (start + mc - ov + mc))).take ov
              = (t.drop (start + mc - ov)).take ov := by
            unfold pySlice
            rw [List.take_take, e3]
          rw [lhs_eq, ← rhs_eq]
    · simp [chunkWindowsLoop, if_neg h]

/-- Claim C2, as stated, is false: with `text = "abcd efgh"`,
`max_chars = 5 > 0` and `overlap = 2 < 5`, `_chunk_text` returns
`["abcd", "d efg", "fgh"]`; the first two chunks are both at least
2 characters long, yet the last 2 characters of chunk 0 (`"cd"`) differ
from the first 2 characters of chunk 1 (`"d "`): the per-chunk
`.strip()` removed the space that closed the first window. -/
theorem claim2_counterexample :
    chunkText (strL "abcd efgh") 5 2 = [strL "abcd", strL "d efg", strL "fgh"]
    ∧ 0 < 5 ∧ 2 < 5
    ∧ 2 ≤ (strL "abcd").length ∧ 2 ≤ (strL "d efg").length
    ∧ (strL "abcd").drop ((strL "abcd").length - 2) ≠ (strL "d efg").take 2 := by
  decide

/-- Claim C2 amended: the exact-overlap invariant holds for the raw
windows the loop slices out of the text — each window after the first
starts `max_chars − overlap` after the previous one, so the last
`overlap` characters of a window equal the first `overlap` characters of
the next.  The emitted chunks are exactly these windows individually
stripped of surrounding whitespace (empty results dropped), so the
shared region survives in the chunks only when stripping removes nothing
from it. -/
theorem claim2_amended (text : Str) (mc ov : Nat) (hov : ov < mc) :
    chunkText text mc ov
      = ((chunkWindows text mc ov).map stripChars).filter (fun c => !c.isEmpty)
    ∧ List.Chain' (fun w1 w2 => w1.drop (w1.length - ov) = w2.take ov)
        (chunkWindows text mc ov) := by
  constructor
  · exact chunkText_eq_windows text mc ov
  · simp only [chunkWindows]
    by_cases hlen : (stripChars text).length ≤ mc
    · rw [if_pos hlen]
      by_cases hnil : stripChars text = []
      · rw [if_pos hnil]; exact List.chain'_nil
      · rw [if_neg hnil]; exact List.chain'_singleton _
    · rw [if_neg hlen]
      exact chunkWindowsLoop_chain (stripChars text) hov _ 0

/-- Witness for `claim2_amended` at `text = "abcd efgh"`, `max_chars = 5`,
`overlap = 2`. -/
theorem claim2_amended_witness :
    2 < 5
    ∧ (chunkText (strL "abcd efgh") 5 2
        = ((chunkWindows (strL "abcd efgh") 5 2).map stripChars).filter
            (fun c => !c.isEmpty)
      ∧ List.Chain' (fun w1 w2 => w1.drop (w1.length - 2) = w2.take 2)
          (chunkWindows (strL "abcd efgh") 5 2)) :=
  ⟨by decide, claim2_amended (strL "abcd efgh") 5 2 (by decide)⟩

/-! ### Structural facts about `findHeaders` -/

theorem greedyA_ge_one {s : Str} {q : Nat} : ∀ {w a : Nat},
    greedyA s q w = some a → 1 ≤ a := by
  intro w
  induction w with
  | zero => intro a h; simp [greedyA] at h
  | succ n ih =>
    intro a h
    simp only [greedyA] at h
    split at h
    · cases h; omega
    · exact ih h

theorem firstTailAux_ge (s : Str) : ∀ f r, r ≤ firstTailAux s f r := by
  intro f
  induction f with
  | zero => intro r; simp [firstTailAux]
  | succ n ih =>
    intro r
    simp only [firstTailAux]
    split
    · exact le_refl r
    · exact le_trans (by omega) (ih (r + 1))

theorem matchEnd_ge (s : Str) (r : Nat) : r ≤ matchEnd s r := by
  unfold matchEnd
  split
  · omega
  · omega

theorem runLen_pos_head {p : Char → Bool} {s : Str} {i : Nat}
    (h : 1 ≤ runLen p s i) : ∃ c, charAt s i = some c ∧ p c = true := by
  unfold runLen at h
  unfold charAt
  cases hd : s.drop i with
  | nil => rw [hd] at h; simp at h
  | cons c t =>
    rw [hd] at h
    by_cases hc : p c
    · exact ⟨c, by simp, hc⟩
    · rw [List.takeWhile_cons, if_neg (by simp [hc])] at h
      simp at h

theorem headerMatchAt_gt {s : Str} {p k e : Nat}
    (h : headerMatchAt s p = some (k, e)) : p < e := by
  simp only [headerMatchAt] at h
  split at h
  case isTrue h1 =>
    split at h
    case isTrue h2 =>
      cases hg : greedyA s (p + hashRun s p) (wsRun s (p + hashRun s p)) with
      | none => rw [hg] at h; simp at h
      | some a =>
        rw [hg] at h
        simp only [Option.some.injEq, Prod.mk.injEq] at h
        obtain ⟨hk, he⟩ := h
        have ha := greedyA_ge_one hg
        have h3 : p + hashRun s p + a + 1
            ≤ firstTail s (p + hashRun s p + a + 1) := firstTailAux_ge s _ _
        have h4 := matchEnd_ge s (firstTail s (p + hashRun s p + a + 1))
        have hk1 := h1.1
        omega
    case isFalse => simp at h
  case isFalse => simp at h

theorem headerMatchAt_hash {s : Str} {p : Nat} {z : Nat × Nat}
    (h : headerMatchAt s p = some z) : charAt s p = some '#' := by
  simp only [headerMatchAt] at h
  split at h
  case isTrue h1 =>
    obtain ⟨c, hc, hp⟩ := runLen_pos_head h1.1
    have : c = '#' := by simpa using hp
    rw [← this]
    exact hc
  case isFalse => simp at h

theorem findHeadersAux_props (s : Str) :
    ∀ fuel p,
      (∀ m ∈ findHeadersAux s fuel p,
        p ≤ m.start ∧ m.start < s.length ∧ charAt s m.start = some '#')
      ∧ (findHeadersAux s fuel p).Pairwise (fun a b => a.start < b.start) := by
  intro fuel
  induction fuel with
  | zero => intro p; simp [findHeadersAux]
  | succ f ih =>
    intro p
    simp only [findHeadersAux]
    by_cases h1 : p < s.length
    · rw [if_pos h1]
      by_cases h2 : p = 0 ∨ charAt s (p - 1) = some '\n'
      · rw [if_pos h2]
        cases hm : headerMatchAt s p with
        | none =>
          refine ⟨fun m hmem => ?_, (ih (p + 1)).2⟩
          have := (ih (p + 1)).1 m hmem
          exact ⟨by omega, this.2.1, this.2.2⟩
        | some z =>
          obtain ⟨k, e⟩ := z
          constructor
          · intro m hmem
            rcases List.mem_cons.mp hmem with rfl | hmem
            · exact ⟨le_refl _, h1, headerMatchAt_hash hm⟩
            · have := (ih e).1 m hmem
              have hpe := headerMatchAt_gt hm
              exact ⟨by omega, this.2.1, this.2.2⟩
          · rw [List.pairwise_cons]
            refine ⟨fun m hmem => ?_, (ih e).2⟩
            have := (ih e).1 m hmem
            have hpe := headerMatchAt_gt hm
            show p < m.start
            omega
      · rw [if_neg h2]
        refine ⟨fun m hmem => ?_, (ih (p + 1)).2⟩
        have := (ih (p + 1)).1 m hmem
        exact ⟨by omega, this.2.1, this.2.2⟩
    · rw [if_neg h1]
      simp

theorem findHeaders_sorted (s : Str) :
    (findHeaders s).Pairwise (fun a b => a.start < b.start) :=
  (findHeadersAux_props s (s.length + 1) 0).2

theorem findHeaders_mem {s : Str} {m : HMatch} (hm : m ∈ findHeaders s) :
    m.start < s.length ∧ charAt s m.start = some '#' :=
  ⟨((findHeadersAux_props s (s.length + 1) 0).1 m hm).2.1,
   ((findHeadersAux_props s (s.length + 1) 0).1 m hm).2.2⟩

/-! ### Tiling facts about the header sections -/

theorem nextCut_cases (minL maxL : Nat) (dflt : Nat) : ∀ ms : List HMatch,
    nextCut minL maxL ms dflt = dflt
    ∨ ∃ m ∈ ms, isInRange minL maxL m ∧ nextCut minL maxL ms dflt = m.start := by
  intro ms
  induction ms with
  | nil => left; rfl
  | cons m rest ih =>
    by_cases hir : isInRange minL maxL m
    · right
      exact ⟨m, by simp, hir, by simp [nextCut, hir]⟩
    · rcases ih with h | ⟨x, hx, hxr, hxe⟩
      · left; simpa [nextCut, hir] using h
      · right
        exact ⟨x, by simp [hx], hxr, by simpa [nextCut, hir] using hxe⟩

theorem buildSections_cover (content : Str) (minL maxL : Nat) :
    ∀ ms : List HMatch,
      ms.Pairwise (fun a b => a.start < b.start) →
      (∀ m ∈ ms, m.start ≤ content.length) →
      removeWS (content.drop (nextCut minL maxL ms content.length))
        = removeWS (buildSections content minL maxL ms).flatten := by
  intro ms
  induction ms with
  | nil =>
    intro _ _
    simp [nextCut, buildSections, List.drop_length]
  | cons m rest ih =>
    intro hpw hbd
    have hlt := (List.pairwise_cons.mp hpw).1
    have hpw' := (List.pairwise_cons.mp hpw).2
    have hbd' : ∀ x ∈ rest, x.start ≤ content.length :=
      fun x hx => hbd x (List.mem_cons_of_mem _ hx)
    simp only [nextCut, buildSections]
    by_cases hir : isInRange minL maxL m
    · rw [if_pos hir, if_pos hir]
      have hcut : m.start ≤ nextCut minL maxL rest content.length
          ∧ nextCut minL maxL rest content.length ≤ content.length := by
        rcases nextCut_cases minL maxL content.length rest with h | ⟨x, hx, _, hxe⟩
        · rw [h]; exact ⟨hbd m (by simp), le_refl _⟩
        · rw [hxe]; exact ⟨le_of_lt (hlt x hx), hbd' x hx⟩
      rw [drop_eq_pySlice_append content hcut.1, removeWS_append, ih hpw' hbd']
      by_cases hblk : stripChars
          (pySlice content m.start (nextCut minL maxL rest content.length)) = []
      · rw [if_pos hblk]
        have hz : removeWS
            (pySlice content m.start (nextCut minL maxL rest content.length)) = [] := by
          rw [← removeWS_strip, hblk]; rfl
        rw [hz, List.nil_append]
      · rw [if_neg hblk, List.flatten_cons, removeWS_append, removeWS_strip]
    · rw [if_neg hir, if_neg hir]
      exact ih hpw' hbd'

theorem buildAllSections_cover (content : Str) :
    ∀ ms : List HMatch,
      ms.Pairwise (fun a b => a.start < b.start) →
      (∀ m ∈ ms, m.start ≤ content.length) →
      removeWS (content.drop (headStartD ms content.length))
        = removeWS (buildAllSections content ms).flatten := by
  intro ms
  induction ms with
  | nil =>
    intro _ _
    simp [headStartD, buildAllSections, List.drop_length]
  | cons m rest ih =>
    intro hpw hbd
    have hlt := (List.pairwise_cons.mp hpw).1
    have hpw' := (List.pairwise_cons.mp hpw).2
    have hbd' : ∀ x ∈ rest, x.start ≤ content.length :=
      fun x hx => hbd x (List.mem_cons_of_mem _ hx)
    have hcut : m.start ≤ headStartD rest content.length
        ∧ headStartD rest content.length ≤ content.length := by
      cases rest with
      | nil => exact ⟨hbd m (by simp), le_refl _⟩
      | cons m2 r2 =>
        exact ⟨le_of_lt (hlt m2 (by simp)), hbd' m2 (by simp)⟩
    have hhead : headStartD (m :: rest) content.length = m.start := rfl
    rw [hhead]
    simp only [buildAllSections]
    rw [drop_eq_pySlice_append content hcut.1, removeWS_append, ih hpw' hbd']
    by_cases hblk : stripChars
        (pySlice content m.start (headStartD rest content.length)) = []
    · rw [if_pos hblk]
      have hz : removeWS
          (pySlice content m.start (headStartD rest content.length)) = [] := by
        rw [← removeWS_strip, hblk]; rfl
      rw [hz, List.nil_append]
    · rw [if_neg hblk, List.flatten_cons, removeWS_append, removeWS_strip]

theorem mem_pySlice_head {s : Str} {i j : Nat} {c : Char} (hij : i < j)
    (hc : charAt s i = some c) : c ∈ pySlice s i j := by
  unfold charAt at hc
  unfold pySlice
  cases hd : s.drop i with
  | nil => rw [hd] at hc; simp at hc
  | cons x t =>
    rw [hd] at hc
    simp only [List.head?_cons, Option.some.injEq] at hc
    obtain ⟨n, hn⟩ : ∃ n, j - i = n + 1 := ⟨j - i - 1, by omega⟩
    rw [hn, List.take_succ_cons, hc]
    exact List.mem_cons_self _ _

theorem buildSections_all_out (content : Str) (minL maxL : Nat) :
    ∀ ms : List HMatch, (∀ m ∈ ms, isInRange minL maxL m = false) →
      buildSections content minL maxL ms = [] := by
  intro ms
  induction ms with
  | nil => intro _; rfl
  | cons m rest ih =>
    intro h
    simp only [buildSections]
    rw [if_neg (by simp [h m (by simp)])]
    exact ih (fun x hx => h x (List.mem_cons_of_mem _ hx))

theorem buildSections_ne_nil (content : Str) (minL maxL : Nat) :
    ∀ ms : List HMatch,
      ms.Pairwise (fun a b => a.start < b.start) →
      (∀ m ∈ ms, m.start < content.length ∧ charAt content m.start = some '#') →
      (∃ m ∈ ms, isInRange minL maxL m) →
      buildSections content minL maxL ms ≠ [] := by
  intro ms
  induction ms with
  | nil => intro _ _ h; simp at h
  | cons m rest ih =>
    intro hpw hok hex
    have hlt := (List.pairwise_cons.mp hpw).1
    have hpw' := (List.pairwise_cons.mp hpw).2
    have hok' : ∀ x ∈ rest, x.start < content.length ∧ charAt content x.start = some '#' :=
      fun x hx => hok x (List.mem_cons_of_mem _ hx)
    simp only [buildSections]
    by_cases hir : isInRange minL maxL m
    · rw [if_pos hir]
      have hgt : m.start < nextCut minL maxL rest content.length := by
        rcases nextCut_cases minL maxL content.length rest with h | ⟨x, hx, _, hxe⟩
        · rw [h]; exact (hok m (by simp)).1
        · rw [hxe]; exact hlt x hx
      have hblk : stripChars
          (pySlice content m.start (nextCut minL maxL rest content.length)) ≠ [] :=
        strip_ne_nil_of_nonws
          (mem_pySlice_head hgt (hok m (by simp)).2) (by decide)
      rw [if_neg hblk]
      simp
    · rw [if_neg hir]
      apply ih hpw' hok'
      rcases hex with ⟨x, hx, hxr⟩
      rcases List.mem_cons.mp hx with rfl | hx
      · exact absurd hxr hir
      · exact ⟨x, hx, hxr⟩

theorem buildSections_mem (content : Str) (minL maxL : Nat) :
    ∀ ms : List HMatch, ∀ b ∈ buildSections content minL maxL ms,
      b ≠ [] ∧ ∃ x, b = stripChars x := by
  intro ms
  induction ms with
  | nil => intro b hb; simp [buildSections] at hb
  | cons m rest ih =>
    intro b hb
    simp only [buildSections] at hb
    by_cases hir : isInRange minL maxL m
    · rw [if_pos hir] at hb
      by_cases hblk : stripChars
          (pySlice content m.start (nextCut minL maxL rest content.length)) = []
      · rw [if_pos hblk] at hb
        exact ih b hb
      · rw [if_neg hblk] at hb
        rcases List.mem_cons.mp hb with rfl | hb
        · exact ⟨hblk, _, rfl⟩
        · exact ih b hb
    · rw [if_neg hir] at hb
      exact ih b hb

theorem buildAllSections_mem (content : Str) :
    ∀ ms : List HMatch, ∀ b ∈ buildAllSections content ms,
      b ≠ [] ∧ ∃ x, b = stripChars x := by
  intro ms
  induction ms with
  | nil => intro b hb; simp [buildAllSections] at hb
  | cons m rest ih =>
    intro b hb
    simp only [buildAllSections] at hb
    by_cases hblk : stripChars
        (pySlice content m.start (headStartD rest content.length)) = []
    · rw [if_pos hblk] at hb
      exact ih b hb
    · rw [if_neg hblk] at hb
      rcases List.mem_cons.mp hb with rfl | hb
      · exact ⟨hblk, _, rfl⟩
      · exact ih b hb

theorem headerSections_mem {content : Str} {minL maxL : Nat} {b : Str}
    (hb : b ∈ headerSections content minL maxL) :
    b ≠ [] ∧ ∃ x, b = stripChars x := by
  simp only [headerSections] at hb
  by_cases h : buildSections content minL maxL (findHeaders content) = []
  · rw [if_pos h] at hb
    exact buildAllSections_mem content (findHeaders content) b hb
  · rw [if_neg h] at hb
    exact buildSections_mem content minL maxL (findHeaders content) b hb

/-! ### Claims about the Segmenter -/

theorem secondary_cover {mc ov : Nat} (hov : ov < mc) :
    ∀ sections : List Str,
      List.Sublist (removeWS sections.flatten)
        (removeWS (sections.flatMap
          (fun s => if mc < s.length then chunkText s mc ov else [s])).flatten) := by
  intro sections
  induction sections with
  | nil => simp
  | cons s rest ih =>
    rw [List.flatten_cons, List.flatMap_cons, List.flatten_append,
      removeWS_append, removeWS_append]
    apply List.Sublist.append ?_ ih
    by_cases h : mc < s.length
    · rw [if_pos h]
      exact chunkText_cover s hov
    · rw [if_neg h]
      simp only [List.flatten_cons, List.flatten_nil, List.append_nil]
      exact List.Sublist.refl _

theorem secondary_cover_mem {mc ov : Nat} (hov : ov < mc) :
    ∀ (sections : List Str) (s : Str), s ∈ sections →
      List.Sublist (removeWS s)
        (removeWS (sections.flatMap
          (fun x => if mc < x.length then chunkText x mc ov else [x])).flatten) := by
  intro sections
  induction sections with
  | nil => intro s hs; simp at hs
  | cons a rest ih =>
    intro s hs
    rw [List.flatMap_cons, List.flatten_append, removeWS_append]
    rcases List.mem_cons.mp hs with rfl | hs
    · apply List.Sublist.trans ?_ (List.sublist_append_left _ _)
      by_cases h : mc < s.length
      · rw [if_pos h]
        exact chunkText_cover s hov
      · rw [if_neg h]
        simp only [List.flatten_cons, List.flatten_nil, List.append_nil]
        exact List.Sublist.refl _
    · exact List.Sublist.trans (ih s hs) (List.sublist_append_right _ _)

/-- Claim C1, as stated, is false: in
`"preamble text here\n# Title\nbody text"` the only header block starts
at the `#`, so the Segmenter returns a single block that has lost the
entire preamble — the non-whitespace characters of the document do not
survive (even ignoring overlaps) into the concatenated blocks, and the
text before the first in-range header appears in no returned block. -/
theorem claim1_counterexample :
    splitMarkdownByHeaders (strL "preamble text here\n# Title\nbody text") 1 3 2000 150
      = [strL "# Title\nbody text"]
    ∧ ¬ List.Sublist (removeWS (strL "preamble text here\n# Title\nbody text"))
        (removeWS ([strL "# Title\nbody text"] : List Str).flatten) := by
  constructor
  · decide
  · decide

/-- Claim C1 amended: concatenating the Segmenter's blocks (ignoring the
inserted overlaps, i.e. up to subsequence) loses no non-whitespace
character of the document *from the first split-point header onward*
(the whole document when it has no headers); text before the first
header used as a split point is dropped.  `overlap < max_chars` is
required — otherwise the Python loop does not terminate. -/
theorem claim1_amended (content : Str) (minL maxL mc ov : Nat) (hov : ov < mc) :
    List.Sublist (removeWS (content.drop (splitBase content minL maxL)))
      (removeWS (splitMarkdownByHeaders content minL maxL mc ov).flatten) := by
  cases hms : findHeaders content with
  | nil =>
    have h1 : splitBase content minL maxL = 0 := by
      simp [splitBase, hms, headStartD]
    rw [h1, List.drop_zero]
    simp only [splitMarkdownByHeaders, hms, if_pos rfl]
    exact chunkText_cover content hov
  | cons m rest =>
    have hsort := findHeaders_sorted content
    rw [hms] at hsort
    have hmem : ∀ x ∈ m :: rest,
        x.start < content.length ∧ charAt content x.start = some '#' := by
      intro x hx
      exact findHeaders_mem (by rw [hms]; exact hx)
    have hbd : ∀ x ∈ m :: rest, x.start ≤ content.length :=
      fun x hx => le_of_lt (hmem x hx).1
    have hnotnil : ¬ findHeaders content = [] := by rw [hms]; simp
    simp only [splitMarkdownByHeaders, if_neg hnotnil]
    by_cases hany : (m :: rest).any (fun x => isInRange minL maxL x)
    · have hex : ∃ x ∈ m :: rest, isInRange minL maxL x := by
        simpa using hany
      have hne := buildSections_ne_nil content minL maxL (m :: rest) hsort hmem hex
      have hsecs : headerSections content minL maxL
          = buildSections content minL maxL (m :: rest) := by
        simp only [headerSections, hms]
        rw [if_neg hne]
      have hbase : splitBase content minL maxL
          = nextCut minL maxL (m :: rest) content.length := by
        simp only [splitBase, hms]
        rw [if_pos hany]
      rw [hbase, buildSections_cover content minL maxL (m :: rest) hsort hbd, hsecs]
      exact secondary_cover hov _
    · have hall : ∀ x ∈ m :: rest, isInRange minL maxL x = false := by
        intro x hx
        rcases Bool.eq_false_or_eq_true (isInRange minL maxL x) with h | h
        · exact absurd (List.any_eq_true.mpr ⟨x, hx, h⟩) hany
        · exact h
      have hempty := buildSections_all_out content minL maxL (m :: rest) hall
      have hsecs : headerSections content minL maxL
          = buildAllSections content (m :: rest) := by
        simp only [headerSections, hms]
        rw [if_pos hempty]
      have hbase : splitBase content minL maxL = m.start := by
        simp only [splitBase, hms]
        rw [if_neg hany]
        rfl
      have hhead : headStartD (m :: rest) content.length = m.start := rfl
      rw [hbase, ← hhead, buildAllSections_cover content (m :: rest) hsort hbd, hsecs]
      exact secondary_cover hov _

/-- Witness for `claim1_amended` on a concrete document with a preamble,
an in-range header and an out-of-range header. -/
theorem claim1_amended_witness :
    150 < 2000
    ∧ List.Sublist
        (removeWS ((strL "pre\n# A\nbody\n#### deep\nmid").drop
          (splitBase (strL "pre\n# A\nbody\n#### deep\nmid") 1 3)))
        (removeWS (splitMarkdownByHeaders
          (strL "pre\n# A\nbody\n#### deep\nmid") 1 3 2000 150).flatten) :=
  ⟨by decide, claim1_amended (strL "pre\n# A\nbody\n#### deep\nmid") 1 3 2000 150
    (by decide)⟩

theorem strip_block_props {B : Str} (h1 : B ≠ []) (h2 : ∃ x, B = stripChars x) :
    B ≠ [] ∧ stripChars B = B ∧ ∃ c ∈ B, pyIsSpace c = false := by
  obtain ⟨x, rfl⟩ := h2
  exact ⟨h1, strip_idem x, strip_nonws_of_ne_nil h1⟩

/-- Claim C10: every block returned by the Segmenter (header blocks and
secondary chunks alike) is non-empty, equals its own trim, and contains
at least one non-whitespace character. -/
theorem claim10 (content : Str) (minL maxL mc ov : Nat) (B : Str)
    (hB : B ∈ splitMarkdownByHeaders content minL maxL mc ov) :
    B ≠ [] ∧ stripChars B = B ∧ ∃ c ∈ B, pyIsSpace c = false := by
  simp only [splitMarkdownByHeaders] at hB
  by_cases hms : findHeaders content = []
  · rw [if_pos hms] at hB
    have h := chunkText_mem hB
    exact strip_block_props h.1 h.2.1
  · rw [if_neg hms] at hB
    obtain ⟨s, hs, hBs⟩ := List.mem_flatMap.mp hB
    by_cases hlen : mc < s.length
    · rw [if_pos hlen] at hBs
      have h := chunkText_mem hBs
      exact strip_block_props h.1 h.2.1
    · rw [if_neg hlen] at hBs
      have hBs := List.mem_singleton.mp hBs
      subst hBs
      have h := headerSections_mem hs
      exact strip_block_props h.1 h.2

/-- Witness for `claim10` at a concrete document and block. -/
theorem claim10_witness :
    (strL "# T\nhello") ∈ splitMarkdownByHeaders (strL "# T\nhello") 1 3 2000 150
    ∧ ((strL "# T\nhello") ≠ [] ∧ stripChars (strL "# T\nhello") = strL "# T\nhello"
      ∧ ∃ c ∈ strL "# T\nhello", pyIsSpace c = false) :=
  ⟨by decide, claim10 (strL "# T\nhello") 1 3 2000 150 (strL "# T\nhello") (by decide)⟩

/-- Claim C5: with `max_chars = 2000` (and a terminating configuration,
`overlap < max_chars`) every returned block is at most 2000 characters
long, and no block is dropped to achieve this: the non-whitespace
content of every header-bounded section — in particular every oversized
one — survives into the final output, the oversized ones through their
secondary chunks, all of which appear in the output. -/
theorem claim5 (content : Str) (minL maxL ov : Nat) (hov : ov < 2000) :
    (∀ B ∈ splitMarkdownByHeaders content minL maxL 2000 ov, B.length ≤ 2000)
    ∧ (∀ s ∈ headerSections content minL maxL,
        List.Sublist (removeWS s)
          (removeWS (splitMarkdownByHeaders content minL maxL 2000 ov).flatten))
    ∧ (∀ s ∈ headerSections content minL maxL, 2000 < s.length →
        chunkText s 2000 ov ≠ []
        ∧ ∀ c ∈ chunkText s 2000 ov,
            c ∈ splitMarkdownByHeaders content minL maxL 2000 ov) := by
  refine ⟨?_, ?_, ?_⟩
  · intro B hB
    simp only [splitMarkdownByHeaders] at hB
    by_cases hms : findHeaders content = []
    · rw [if_pos hms] at hB
      exact (chunkText_mem hB).2.2
    · rw [if_neg hms] at hB
      obtain ⟨s, hs, hBs⟩ := List.mem_flatMap.mp hB
      by_cases hlen : 2000 < s.length
      · rw [if_pos hlen] at hBs
        exact (chunkText_mem hBs).2.2
      · rw [if_neg hlen] at hBs
        rw [List.mem_singleton.mp hBs]
        omega
  · intro s hs
    by_cases hms : findHeaders content = []
    · exfalso
      simp only [headerSections, hms, buildSections, buildAllSections] at hs
      simp at hs
    · simp only [splitMarkdownByHeaders, if_neg hms]
      exact secondary_cover_mem hov _ s hs
  · intro s hs hlen
    have hprops := headerSections_mem hs
    have hstrip : stripChars s = s := by
      obtain ⟨x, rfl⟩ := hprops.2
      exact strip_idem x
    refine ⟨chunkText_ne_nil (by omega) hstrip hlen, ?_⟩
    intro c hc
    by_cases hms : findHeaders content = []
    · exfalso
      simp only [headerSections, hms, buildSections, buildAllSections] at hs
      simp at hs
    · simp only [splitMarkdownByHeaders, if_neg hms]
      refine List.mem_flatMap.mpr ⟨s, hs, ?_⟩
      rw [if_pos hlen]
      exact hc

/-- Witness for `claim5` on a concrete document. -/
theorem claim5_witness :
    150 < 2000
    ∧ ((∀ B ∈ splitMarkdownByHeaders (strL "# A\nhello world") 1 3 2000 150,
          B.length ≤ 2000)
      ∧ (∀ s ∈ headerSections (strL "# A\nhello world") 1 3,
          List.Sublist (removeWS s)
            (removeWS (splitMarkdownByHeaders
              (strL "# A\nhello world") 1 3 2000 150).flatten))
      ∧ (∀ s ∈ headerSections (strL "# A\nhello world") 1 3, 2000 < s.length →
          chunkText s 2000 150 ≠ []
          ∧ ∀ c ∈ chunkText s 2000 150,
              c ∈ splitMarkdownByHeaders (strL "# A\nhello world") 1 3 2000 150)) :=
  ⟨by decide, claim5 (strL "# A\nhello world") 1 3 150 (by decide)⟩

/-! ### Facts about `_perform_rerank` -/

theorem insDesc_perm {μ : Type} (x : Int × Document μ) :
    ∀ l : List (Int × Document μ), List.Perm (insDesc x l) (x :: l) := by
  intro l
  induction l with
  | nil => exact List.Perm.refl _
  | cons y ys ih =>
    simp only [insDesc]
    split
    · exact List.Perm.refl _
    · exact List.Perm.trans (List.Perm.cons y ih) (List.Perm.swap x y ys)

theorem sortDesc_perm {μ : Type} :
    ∀ l : List (Int × Document μ), List.Perm (sortDesc l) l := by
  intro l
  induction l with
  | nil => exact List.Perm.refl _
  | cons x xs ih =>
    exact List.Perm.trans (insDesc_perm x (sortDesc xs)) (List.Perm.cons x ih)

theorem insDesc_chain {μ : Type} (x : Int × Document μ) :
    ∀ l : List (Int × Document μ),
      List.Chain' (fun a b => b.1 ≤ a.1) l →
      List.Chain' (fun a b => b.1 ≤ a.1) (insDesc x l) := by
  intro l
  induction l with
  | nil => intro _; simp [insDesc]
  | cons y ys ih =>
    intro h
    simp only [insDesc]
    split
    case isTrue hxy => exact List.Chain'.cons hxy h
    case isFalse hxy =>
      have hins := ih h.tail
      rw [List.chain'_cons']
      refine ⟨?_, hins⟩
      intro z hz
      have hyx : x.1 ≤ y.1 := le_of_lt (not_le.mp hxy)
      cases ys with
      | nil =>
        simp only [insDesc, List.head?_cons, Option.mem_def, Option.some.injEq] at hz
        rw [← hz]
        exact hyx
      | cons u us =>
        simp only [insDesc] at hz
        split at hz
        · simp only [List.head?_cons, Option.mem_def, Option.some.injEq] at hz
          rw [← hz]
          exact hyx
        · simp only [List.head?_cons, Option.mem_def, Option.some.injEq] at hz
          rw [← hz]
          exact (List.chain'_cons.mp h).1

theorem sortDesc_chain {μ : Type} :
    ∀ l : List (Int × Document μ),
      List.Chain' (fun a b => b.1 ≤ a.1) (sortDesc l) := by
  intro l
  induction l with
  | nil => simp [sortDesc]
  | cons x xs ih => exact insDesc_chain x (sortDesc xs) ih

theorem insDesc_filter {μ : Type} (x : Int × Document μ) (v : Int) :
    ∀ l : List (Int × Document μ),
      (insDesc x l).filter (fun p => p.1 == v)
        = if x.1 = v then x :: l.filter (fun p => p.1 == v)
          else l.filter (fun p => p.1 == v) := by
  intro l
  induction l with
  | nil =>
    simp only [insDesc, List.filter_cons, List.filter_nil]
    by_cases hx : x.1 = v
    · simp [hx]
    · simp [hx]
  | cons y ys ih =>
    simp only [insDesc]
    split
    case isTrue hxy =>
      by_cases hx : x.1 = v
      · simp [List.filter_cons, hx]
      · simp [List.filter_cons, hx]
    case isFalse hxy =>
      have hylt : x.1 < y.1 := not_le.mp hxy
      rw [List.filter_cons, ih]
      by_cases hx : x.1 = v
      · have hy : (y.1 == v) = false := by
          simp only [beq_eq_false_iff_ne, ne_eq]
          omega
        rw [if_pos hx, hy]
        simp only [Bool.false_eq_true, if_false]
        rw [List.filter_cons, hy]
        simp [hx]
      · rw [if_neg hx, if_neg hx, List.filter_cons]

theorem sortDesc_filter {μ : Type} (v : Int) :
    ∀ l : List (Int × Document μ),
      (sortDesc l).filter (fun p => p.1 == v) = l.filter (fun p => p.1 == v) := by
  intro l
  induction l with
  | nil => rfl
  | cons x xs ih =>
    simp only [sortDesc]
    rw [insDesc_filter, ih, List.filter_cons]
    by_cases hx : x.1 = v
    · rw [if_pos hx]
      simp [hx]
    · rw [if_neg hx]
      have : (x.1 == v) = false := by simpa using hx
      rw [this]
      simp

theorem insertUpd_keys {μ : Type} (d : Document μ) :
    ∀ m : List (Document μ),
      (insertUpd m d).map (fun x => x.page_content)
        = if d.page_content ∈ m.map (fun x => x.page_content)
          then m.map (fun x => x.page_content)
          else m.map (fun x => x.page_content) ++ [d.page_content] := by
  intro m
  induction m with
  | nil => simp [insertUpd]
  | cons e es ih =>
    simp only [insertUpd]
    by_cases he : e.page_content = d.page_content
    · rw [if_pos he]
      simp [he]
    · rw [if_neg he]
      simp only [List.map_cons, ih]
      by_cases hd : d.page_content ∈ es.map (fun x => x.page_content)
      · rw [if_pos hd, if_pos (by simp [hd])]
      · rw [if_neg hd, if_neg ?_]
        · simp
        · simp only [List.map_cons, List.mem_cons]
          rintro (h | h)
          · exact he h.symm
          · exact hd h

theorem foldl_insertUpd_keys_nodup {μ : Type} :
    ∀ (docs : List (Document μ)) (acc : List (Document μ)),
      (acc.map (fun x => x.page_content)).Nodup →
      ((docs.foldl insertUpd acc).map (fun x => x.page_content)).Nodup := by
  intro docs
  induction docs with
  | nil => intro acc h; exact h
  | cons d rest ih =>
    intro acc h
    simp only [List.foldl_cons]
    apply ih
    rw [insertUpd_keys]
    by_cases hd : d.page_content ∈ acc.map (fun x => x.page_content)
    · rw [if_pos hd]; exact h
    · rw [if_neg hd]
      rw [List.nodup_append]
      refine ⟨h, by simp, ?_⟩
      intro x hx
      simp only [List.mem_singleton]
      intro hxd
      rw [hxd] at hx
      exact hd hx

theorem foldl_insertUpd_keys_mem {μ : Type} (t : Str) :
    ∀ (docs : List (Document μ)) (acc : List (Document μ)),
      (t ∈ (docs.foldl insertUpd acc).map (fun x => x.page_content)
        ↔ t ∈ acc.map (fun x => x.page_content)
          ∨ t ∈ docs.map (fun x => x.page_content)) := by
  intro docs
  induction docs with
  | nil => intro acc; simp
  | cons d rest ih =>
    intro acc
    simp only [List.foldl_cons, List.map_cons, List.mem_cons]
    rw [ih]
    rw [insertUpd_keys]
    by_cases hd : d.page_content ∈ acc.map (fun x => x.page_content)
    · rw [if_pos hd]
      constructor
      · rintro (h | h)
        · exact Or.inl h
        · exact Or.inr (Or.inr h)
      · rintro (h | h | h)
        · exact Or.inl h
        · rw [h]; exact Or.inl hd
        · exact Or.inr h
    · rw [if_neg hd]
      simp only [List.mem_append, List.mem_singleton]
      tauto

theorem dedupByContent_keys_nodup {μ : Type} (docs : List (Document μ)) :
    ((dedupByContent docs).map (fun x => x.page_content)).Nodup :=
  foldl_insertUpd_keys_nodup docs [] (by simp)

theorem dedupByContent_keys_mem {μ : Type} (t : Str) (docs : List (Document μ)) :
    t ∈ (dedupByContent docs).map (fun x => x.page_content)
      ↔ t ∈ docs.map (fun x => x.page_content) := by
  unfold dedupByContent
  rw [foldl_insertUpd_keys_mem]
  simp

theorem dedupByContent_length {μ : Type} (docs : List (Document μ)) :
    (dedupByContent docs).length
      = ((docs.map (fun x => x.page_content)).dedup).length := by
  have h1 := dedupByContent_keys_nodup docs
  have h2 : ((dedupByContent docs).map (fun x => x.page_content)).toFinset
      = ((docs.map (fun x => x.page_content)).dedup).toFinset := by
    ext t
    simp only [List.mem_toFinset, List.mem_dedup]
    exact dedupByContent_keys_mem t docs
  calc (dedupByContent docs).length
      = ((dedupByContent docs).map (fun x => x.page_content)).length := by
        rw [List.length_map]
    _ = ((dedupByContent docs).map (fun x => x.page_content)).toFinset.card :=
        (List.toFinset_card_of_nodup h1).symm
    _ = ((docs.map (fun x => x.page_content)).dedup).toFinset.card := by rw [h2]
    _ = ((docs.map (fun x => x.page_content)).dedup).length :=
        List.toFinset_card_of_nodup (List.nodup_dedup _)

theorem chain'_take {α : Type} {R : α → α → Prop} :
    ∀ (n : Nat) (l : List α), List.Chain' R l → List.Chain' R (l.take n) := by
  intro n
  induction n with
  | zero => intro l _; simp
  | succ k ih =>
    intro l h
    cases l with
    | nil => simp
    | cons x xs =>
      rw [List.take_succ_cons, List.chain'_cons']
      refine ⟨?_, ih xs h.tail⟩
      intro y hy
      cases k with
      | zero => simp at hy
      | succ k2 =>
        cases xs with
        | nil => simp at hy
        | cons z zs =>
          rw [List.take_succ_cons] at hy
          simp only [List.head?_cons, Option.mem_def, Option.some.injEq] at hy
          subst hy
          exact (List.chain'_cons.mp h).1

theorem performRerank_eq {μ : Type} (score : Str → Str → Int) (query : Str)
    (docs : List (Document μ)) (K : Nat) (h : docs.isEmpty = false) :
    performRerank score query docs K
      = ((sortDesc ((dedupByContent docs).map
            (fun d => (score query d.page_content, d)))).take K).map
          (fun p => p.2) := by
  simp only [performRerank, h, Bool.false_eq_true, if_false]

theorem sorted_mem_pair {μ : Type} (score : Str → Str → Int) (query : Str)
    (docs : List (Document μ)) {p : Int × Document μ}
    (hp : p ∈ sortDesc ((dedupByContent docs).map
      (fun d => (score query d.page_content, d)))) :
    p = (score query p.2.page_content, p.2) := by
  have hp' := (sortDesc_perm _).mem_iff.mp hp
  obtain ⟨d, _, rfl⟩ := List.mem_map.mp hp'
  rfl

/-- Claim C4: for every query, section list and `top_k` value `K`, the
Reranker's output has length `min(K, number of unique-text sections)`,
is sorted by non-increasing relevance score, and among entries with
equal score the original (post-deduplication) input order is preserved —
the stable sort applies no tie-break beyond position. -/
theorem claim4 {μ : Type} (score : Str → Str → Int) (query : Str)
    (docs : List (Document μ)) (K : Nat) :
    (performRerank score query docs K).length
        = min K ((docs.map (fun d => d.page_content)).dedup).length
    ∧ List.Chain'
        (fun d e => score query e.page_content ≤ score query d.page_content)
        (performRerank score query docs K)
    ∧ ∀ v : Int,
        List.Sublist
          ((performRerank score query docs K).filter
            (fun d => score query d.page_content == v))
          ((dedupByContent docs).filter
            (fun d => score query d.page_content == v)) := by
  by_cases hd : docs.isEmpty
  · have hnil : docs = [] := List.isEmpty_iff.mp hd
    subst hnil
    refine ⟨by simp [performRerank, dedupByContent], by simp [performRerank], ?_⟩
    intro v
    simp [performRerank, dedupByContent]
  · have hd' : docs.isEmpty = false := by
      cases h : docs.isEmpty
      · rfl
      · exact absurd h hd
    rw [performRerank_eq score query docs K hd']
    have hinvtk : ∀ p ∈ (sortDesc ((dedupByContent docs).map
        (fun d => (score query d.page_content, d)))).take K,
        p = (score query p.2.page_content, p.2) :=
      fun p hp => sorted_mem_pair score query docs (List.take_subset K _ hp)
    refine ⟨?_, ?_, ?_⟩
    · rw [List.length_map, List.length_take, (sortDesc_perm _).length_eq,
        List.length_map, dedupByContent_length]
    · have hch : List.Chain' (fun a b => b.1 ≤ a.1)
          ((sortDesc ((dedupByContent docs).map
            (fun d => (score query d.page_content, d)))).take K) :=
        chain'_take K _ (sortDesc_chain _)
      have htk_eq : (sortDesc ((dedupByContent docs).map
            (fun d => (score query d.page_content, d)))).take K
          = (((sortDesc ((dedupByContent docs).map
              (fun d => (score query d.page_content, d)))).take K).map
              (fun p => p.2)).map (fun d => (score query d.page_content, d)) := by
        rw [List.map_map]
        calc (sortDesc ((dedupByContent docs).map
              (fun d => (score query d.page_content, d)))).take K
            = ((sortDesc ((dedupByContent docs).map
                (fun d => (score query d.page_content, d)))).take K).map id := by
              rw [List.map_id]
          _ = _ := List.map_congr_left (fun p hp => hinvtk p hp)
      rw [htk_eq, List.chain'_map] at hch
      exact hch
    · intro v
      have step1 : (((sortDesc ((dedupByContent docs).map
            (fun d => (score query d.page_content, d)))).take K).map
            (fun p => p.2)).filter (fun d => score query d.page_content == v)
          = (((sortDesc ((dedupByContent docs).map
              (fun d => (score query d.page_content, d)))).take K).filter
              (fun p => p.1 == v)).map (fun p => p.2) := by
        rw [List.filter_map]
        congr 1
        apply List.filter_congr
        intro p hp
        conv_rhs => rw [hinvtk p hp]
        rfl
      have step2 : List.Sublist
          (((sortDesc ((dedupByContent docs).map
            (fun d => (score query d.page_content, d)))).take K).filter
            (fun p => p.1 == v))
          (((dedupByContent docs).map
            (fun d => (score query d.page_content, d))).filter
            (fun p => p.1 == v)) := by
        have h := (List.take_sublist K (sortDesc ((dedupByContent docs).map
          (fun d => (score query d.page_content, d))))).filter (fun p => p.1 == v)
        rw [sortDesc_filter] at h
        exact h
      have step3 : (((dedupByContent docs).map
            (fun d => (score query d.page_content, d))).filter
            (fun p => p.1 == v)).map (fun p => p.2)
          = (dedupByContent docs).filter
              (fun d => score query d.page_content == v) := by
        rw [List.filter_map, List.map_map]
        have : ((fun p : Int × Document μ => p.2) ∘
            (fun d => (score query d.page_content, d))) = id := rfl
        rw [this, List.map_id]
        rfl
      rw [step1, ← step3]
      exact step2.map _

/-- Claim C3, as stated, is false in its metadata half: feeding the
Reranker the same text twice with different metadata does collapse to
one entry, but `{d.page_content: d for d in docs}` overwrites the value
on a repeated key, so the metadata carried into the output is that of
the **last** occurrence, not the first. -/
theorem claim3_counterexample :
    (performRerank (fun _ _ => 0) (strL "q")
        ([⟨strL "duplicate section text", ⟨strL "duplicate section text", [],
            strL "http://first", strL "markdown"⟩⟩,
          ⟨strL "duplicate section text", ⟨strL "duplicate section text", [],
            strL "http://second", strL "markdown"⟩⟩] :
          List (Document ExtractedItem))
        50).map (fun d => d.metadata)
      = [⟨strL "duplicate section text", [], strL "http://second", strL "markdown"⟩]
    ∧ (⟨strL "duplicate section text", [], strL "http://second",
          strL "markdown"⟩ : ExtractedItem)
        ≠ ⟨strL "duplicate section text", [], strL "http://first", strL "markdown"⟩ := by
  constructor
  · decide
  · decide

/-- Claim C3 amended: duplicate-text sections collapse to exactly one
scored entry before scoring, positioned by the first occurrence, and the
metadata carried into the output is that of the **last** occurrence of
that text: same text twice with different metadata yields exactly the
one entry holding the second metadata (for any score model and any
`top_k ≥ 1`). -/
theorem claim3_amended (score : Str → Str → Int) (query t : Str)
    (m1 m2 : ExtractedItem) (K : Nat) (hK : 1 ≤ K) :
    performRerank score query
        [(⟨t, m1⟩ : Document ExtractedItem), ⟨t, m2⟩] K
      = [⟨t, m2⟩] := by
  obtain ⟨k, rfl⟩ : ∃ k, K = k + 1 := ⟨K - 1, by omega⟩
  have hdd : dedupByContent [(⟨t, m1⟩ : Document ExtractedItem), ⟨t, m2⟩]
      = [⟨t, m2⟩] := by
    simp [dedupByContent, insertUpd]
  rw [performRerank_eq score query
    [(⟨t, m1⟩ : Document ExtractedItem), ⟨t, m2⟩] (k + 1) rfl, hdd]
  simp [sortDesc, insDesc, List.take_succ_cons]

/-- Witness for `claim3_amended` at concrete metadata and `top_k = 50`. -/
theorem claim3_amended_witness :
    1 ≤ 50
    ∧ performRerank (fun _ _ => 0) (strL "q")
        ([⟨strL "same text here", ⟨strL "same text here", [], strL "http://a",
            strL "markdown"⟩⟩,
          ⟨strL "same text here", ⟨strL "same text here", [], strL "http://b",
            strL "markdown"⟩⟩] : List (Document ExtractedItem)) 50
      = [⟨strL "same text here", ⟨strL "same text here", [], strL "http://b",
            strL "markdown"⟩⟩] :=
  ⟨by decide, claim3_amended (fun _ _ => 0) (strL "q") (strL "same text here")
    ⟨strL "same text here", [], strL "http://a", strL "markdown"⟩
    ⟨strL "same text here", [], strL "http://b", strL "markdown"⟩ 50 (by decide)⟩

/-! ### Facts about `_process_structured_content_raw` -/

theorem pySetList_nodup {α : Type} [DecidableEq α] :
    ∀ l : List α, (pySetList l).Nodup := by
  intro l
  induction l with
  | nil => simp [pySetList]
  | cons x xs ih =>
    simp only [pySetList]
    rw [List.nodup_cons]
    constructor
    · intro hx
      have := List.of_mem_filter hx
      simp at this
    · exact ih.filter _

theorem pySetList_mem {α : Type} [DecidableEq α] (a : α) :
    ∀ l : List α, a ∈ pySetList l ↔ a ∈ l := by
  intro l
  induction l with
  | nil => simp [pySetList]
  | cons x xs ih =>
    simp only [pySetList, List.mem_cons, List.mem_filter, ih]
    by_cases hax : a = x
    · simp [hax]
    · simp [hax]

theorem processOne_mem {info : DocInfo} {item : ExtractedItem}
    (h : item ∈ processOne info) :
    ∃ seg, item.text = stripChars seg ∧ 10 ≤ item.text.length
      ∧ item.images = pySetList (findImages item.text) := by
  simp only [processOne] at h
  obtain ⟨seg, hseg, hit⟩ := List.mem_filterMap.mp h
  by_cases hlen : (stripChars seg).length < 10
  · rw [if_pos hlen] at hit
    simp at hit
  · rw [if_neg hlen] at hit
    cases hit
    refine ⟨seg, rfl, ?_, rfl⟩
    show 10 ≤ (stripChars seg).length
    omega

/-- Claim C7: every section emitted by the Evidence Extractor has
trimmed length at least 10 — its text is at least 10 characters long and
already equals its own trim (segments shorter than 10 after trimming are
discarded). -/
theorem claim7 (docs : List DocInfo) (item : ExtractedItem)
    (h : item ∈ processStructuredContentRaw docs) :
    10 ≤ item.text.length ∧ stripChars item.text = item.text := by
  obtain ⟨info, _, hone⟩ := List.mem_flatMap.mp h
  obtain ⟨seg, htext, hlen, _⟩ := processOne_mem hone
  refine ⟨hlen, ?_⟩
  rw [htext, strip_idem]

/-- Witness for `claim7` at a concrete one-section document. -/
theorem claim7_witness :
    (⟨strL "This is a long enough section.", [], strL "u", strL "markdown"⟩ :
        ExtractedItem)
      ∈ processStructuredContentRaw
          [⟨strL "This is a long enough section.", strL "u", strL "markdown"⟩]
    ∧ (10 ≤ (strL "This is a long enough section.").length
      ∧ stripChars (strL "This is a long enough section.")
          = strL "This is a long enough section.") :=
  ⟨by decide,
   claim7 [⟨strL "This is a long enough section.", strL "u", strL "markdown"⟩]
     ⟨strL "This is a long enough section.", [], strL "u", strL "markdown"⟩
     (by decide)⟩

/-- Claim C8: the image list attached to every emitted section is the
duplicate-free collection of the URLs captured by the inline image
pattern in that section's text — each URL occurs at most once, and a URL
is listed exactly when the pattern captures it. -/
theorem claim8 (docs : List DocInfo) (item : ExtractedItem)
    (h : item ∈ processStructuredContentRaw docs) :
    item.images.Nodup
    ∧ ∀ u, u ∈ item.images ↔ u ∈ findImages item.text := by
  obtain ⟨info, _, hone⟩ := List.mem_flatMap.mp h
  obtain ⟨seg, _, _, himg⟩ := processOne_mem hone
  rw [himg]
  exact ⟨pySetList_nodup _, fun u => pySetList_mem u _⟩

/-- Witness for `claim8`: a section holding the same image URL twice
(with different alt texts) carries it exactly once. -/
theorem claim8_witness :
    (⟨strL "Images here: ![alt](http://img1.png) and ![alt2](http://img1.png) ok.",
        [strL "http://img1.png"], strL "u", strL "markdown"⟩ : ExtractedItem)
      ∈ processStructuredContentRaw
          [⟨strL "Images here: ![alt](http://img1.png) and ![alt2](http://img1.png) ok.",
            strL "u", strL "markdown"⟩]
    ∧ ([strL "http://img1.png"].Nodup
      ∧ ∀ u, u ∈ [strL "http://img1.png"]
          ↔ u ∈ findImages
              (strL "Images here: ![alt](http://img1.png) and ![alt2](http://img1.png) ok.")) :=
  ⟨by decide,
   claim8
     [⟨strL "Images here: ![alt](http://img1.png) and ![alt2](http://img1.png) ok.",
       strL "u", strL "markdown"⟩]
     ⟨strL "Images here: ![alt](http://img1.png) and ![alt2](http://img1.png) ok.",
       [strL "http://img1.png"], strL "u", strL "markdown"⟩
     (by decide)⟩

/-! ### Claims about `execute` and the Session Store -/

/-- Claim C6: when the corpus pool is empty after loading (empty
`file_paths`, or every path missing or non-markdown), `execute` returns
the "no items found" message, writes nothing to the session store, and
its result does not depend on the vector-index or rerank oracles at all
— neither model is consulted. -/
theorem claim6 (fs : Str → Option Str)
    (recallFn recallFn' : List (Document BlockMeta) → Str → List (Document BlockMeta))
    (score score' : Str → Str → Int) (query : Str) (paths : List Str)
    (source_url : Option Str) (session : Str)
    (hpool : buildPool fs source_url paths = []) :
    (executeModel fs recallFn score query paths source_url session).1
        = strL "Batch process finished, no items found."
    ∧ (executeModel fs recallFn score query paths source_url session).2 = none
    ∧ executeModel fs recallFn score query paths source_url session
        = executeModel fs recallFn' score' query paths source_url session := by
  refine ⟨?_, ?_, ?_⟩ <;> simp [executeModel, hpool]

/-- Witness for `claim6`: a file system with no files and a single
(missing) markdown path. -/
theorem claim6_witness :
    buildPool (fun _ => none) none [strL "missing.md"] = []
    ∧ ((executeModel (fun _ => none) (fun p _ => p) (fun _ _ => 0) (strL "q")
          [strL "missing.md"] none (strL "s")).1
        = strL "Batch process finished, no items found."
      ∧ (executeModel (fun _ => none) (fun p _ => p) (fun _ _ => 0) (strL "q")
          [strL "missing.md"] none (strL "s")).2 = none
      ∧ executeModel (fun _ => none) (fun p _ => p) (fun _ _ => 0) (strL "q")
          [strL "missing.md"] none (strL "s")
        = executeModel (fun _ => none) (fun _ _ => []) (fun _ _ => 1) (strL "q")
          [strL "missing.md"] none (strL "s")) :=
  ⟨rfl, claim6 (fun _ => none) (fun p _ => p) (fun _ _ => [])
    (fun _ _ => 0) (fun _ _ => 1) (strL "q") [strL "missing.md"] none (strL "s") rfl⟩

theorem lookupField_cons_eq (k : Str) (v : JVal) (rest : List (Str × JVal)) :
    lookupField k ((k, v) :: rest) = some v := by
  show (if k = k then some v else lookupField k rest) = some v
  rw [if_pos rfl]

theorem lookupField_cons_ne {k k' : Str} (h : k' ≠ k) (v : JVal)
    (rest : List (Str × JVal)) :
    lookupField k ((k', v) :: rest) = lookupField k rest := by
  show (if k' = k then some v else lookupField k rest) = lookupField k rest
  rw [if_neg h]

theorem decodeStrList_encode : ∀ l : List Str, decodeStrList (l.map JVal.str) = some l := by
  intro l
  induction l with
  | nil => rfl
  | cons s rest ih => simp [decodeStrList, ih]

theorem decodeRec_encode (r : EvidenceRec) : decodeRec (encodeRec r) = some r := by
  simp only [decodeRec, encodeRec]
  rw [lookupField_cons_eq, lookupField_cons_ne (by decide), lookupField_cons_eq,
    lookupField_cons_ne (by decide), lookupField_cons_ne (by decide),
    lookupField_cons_eq]
  simp [decodeStrList_encode]

theorem decodeRecList_encode :
    ∀ data : List EvidenceRec, decodeRecList (data.map encodeRec) = some data := by
  intro data
  induction data with
  | nil => rfl
  | cons r rest ih =>
    simp only [List.map_cons, decodeRecList, decodeRec_encode r, ih]

/-- Claim C9: writing `N` evidence items to the Session Store and
reading back as the report generator does (the `"data"` field) yields
exactly the `N` encoded items in relevance order, which decode back to
byte-identical text fields and identical (hence set-equal) image lists;
and the write fully replaces any previous session-file content — the
stored value does not depend on the prior store. -/
theorem claim9 (store store₂ : Str → Option JVal) (data : List EvidenceRec)
    (session : Str) (hne : data ≠ []) :
    reportLoadData (saveFinalData store data session).1 session
        = some (JVal.arr (data.map encodeRec))
    ∧ decodeRecList (data.map encodeRec) = some data
    ∧ (data.map encodeRec).length = data.length
    ∧ (saveFinalData store₂ data session).1 (savePath session)
        = (saveFinalData store data session).1 (savePath session) := by
  refine ⟨?_, decodeRecList_encode data, List.length_map _ _, ?_⟩
  · have hmap : (data.map encodeRec).isEmpty = false := by
      cases data with
      | nil => exact absurd rfl hne
      | cons a b => rfl
    simp [reportLoadData, saveFinalData, getDataField, lookupField_cons_eq,
      jTruthy, hmap]
  · simp [saveFinalData]

/-- Witness for `claim9` at a one-item list and two distinct prior stores. -/
theorem claim9_witness :
    ([⟨strL "evidence text", [strL "http://img.png"], strL "http://src"⟩] :
        List EvidenceRec) ≠ []
    ∧ (reportLoadData
          (saveFinalData (fun _ => none)
            [⟨strL "evidence text", [strL "http://img.png"], strL "http://src"⟩]
            (strL "s")).1 (strL "s")
        = some (JVal.arr
            (([⟨strL "evidence text", [strL "http://img.png"], strL "http://src"⟩] :
              List EvidenceRec).map encodeRec))
      ∧ decodeRecList
          (([⟨strL "evidence text", [strL "http://img.png"], strL "http://src"⟩] :
            List EvidenceRec).map encodeRec)
        = some [⟨strL "evidence text", [strL "http://img.png"], strL "http://src"⟩]
      ∧ (([⟨strL "evidence text", [strL "http://img.png"], strL "http://src"⟩] :
            List EvidenceRec).map encodeRec).length
        = ([⟨strL "evidence text", [strL "http://img.png"], strL "http://src"⟩] :
            List EvidenceRec).length
      ∧ (saveFinalData (fun _ => some (JVal.str (strL "stale content")))
            [⟨strL "evidence text", [strL "http://img.png"], strL "http://src"⟩]
            (strL "s")).1 (savePath (strL "s"))
        = (saveFinalData (fun _ => none)
            [⟨strL "evidence text", [strL "http://img.png"], strL "http://src"⟩]
            (strL "s")).1 (savePath (strL "s"))) :=
  ⟨by decide,
   claim9 (fun _ => none) (fun _ => some (JVal.str (strL "stale content")))
     [⟨strL "evidence text", [strL "http://img.png"], strL "http://src"⟩]
     (strL "s") (by decide)⟩
